import Mathlib

/-!
Verification of the self-contained HD-wallet crypto core of the CronCoin
dashboard server (`server.py`).

The Python source is shallowly embedded: byte strings become `List Nat`
(with every entry `< 256`), Python `int` becomes `Nat`/`Int`, functions
that can raise become `Except String _`.  Library hash primitives that the
source merely calls (`hashlib.sha256`, `hmac` with SHA-512,
`hashlib.pbkdf2_hmac`) are external to the repository and are passed as
explicit function parameters; theorems assume only the output shape
(length, byte-ness) that the real primitives guarantee.
-/

/-! ### Bytes and bits -/

/-- Model of Python `int.from_bytes(data, "big")`. -/
def natFromBytesBE (bs : List Nat) : Nat :=
  bs.foldl (fun a b => a * 256 + b) 0

/-- Every entry of the list is a byte value. -/
def IsBytes (bs : List Nat) : Prop := ∀ b ∈ bs, b < 256

instance : DecidablePred IsBytes := fun bs =>
  inferInstanceAs (Decidable (∀ b ∈ bs, b < 256))

/-- Model of Python `n.to_bytes(w, "big")` (big-endian, fixed width `w`;
the source only calls it with `n < 256 ^ w`, where it agrees with Python). -/
def natToBytesBE : Nat → Nat → List Nat
  | 0, _ => []
  | w + 1, n => natToBytesBE w (n / 256) ++ [n % 256]

def bitLenGo : Nat → Nat → Nat
  | 0, _ => 0
  | fuel + 1, n => if n = 0 then 0 else bitLenGo fuel (n / 2) + 1

/-- Model of Python `int.bit_length()`. -/
def pyBitLength (n : Nat) : Nat := bitLenGo n n

/-! ### Modular exponentiation (model of Python's three-argument `pow`) -/

def powModGo (m b : Nat) : Nat → Nat → Nat
  | 0, _ => 1 % m
  | fuel + 1, e =>
      if e = 0 then 1 % m
      else
        let h := powModGo m (b * b % m) fuel (e / 2)
        if e % 2 = 1 then h * b % m else h

/-- Model of Python `pow(b, e, m)` for `m > 0`, by square and multiply. -/
def powMod (b e m : Nat) : Nat := powModGo m (b % m) e e

/-! ### Base58 (`_b58encode`, `_b58decode` and the checked variants) -/

def _B58_ALPHABET : String := "123456789ABCDEFGHJKLMNPQRSTUVWXYZabcdefghijkmnopqrstuvwxyz"

/-- `_B58_ALPHABET[r]` as a total function (the source only indexes with
`r < 58`). -/
def b58Alpha (d : Nat) : Char := _B58_ALPHABET.data.getD d ' '

/-- The `while n > 0: n, r = divmod(n, 58); result.append(alphabet[r])` loop
of `_b58encode`; digit characters least-significant first, as in the
Python `result` list before reversal. -/
def b58DigitChars : Nat → Nat → List Char
  | 0, _ => []
  | fuel + 1, n =>
      if n = 0 then []
      else b58Alpha (n % 58) :: b58DigitChars fuel (n / 58)

def _b58encode (data : List Nat) : String :=
  let n := natFromBytesBE data
  let pad := (data.takeWhile (fun b => b == 0)).length
  String.mk (List.replicate pad '1' ++ (b58DigitChars n n).reverse)

/-- Model of Python `_B58_ALPHABET.index(c)` (raises when absent). -/
def b58CharVal (c : Char) : Except String Nat :=
  match _B58_ALPHABET.data.findIdx? (fun a => a == c) with
  | some i => .ok i
  | none => .error "substring not found"

def _b58decode (s : String) : Except String (List Nat) := do
  let n ← s.data.foldlM (fun n c => do pure (n * 58 + (← b58CharVal c))) 0
  let byteLen := (pyBitLength n + 7) / 8
  let result := natToBytesBE byteLen n
  let pad := (s.data.takeWhile (fun c => c == '1')).length
  pure (List.replicate pad 0 ++ result)

def _b58encode_check (sha256 : List Nat → List Nat) (payload : List Nat) : String :=
  let cksum := (sha256 (sha256 payload)).take 4
  _b58encode (payload ++ cksum)

def _b58decode_check (sha256 : List Nat → List Nat) (s : String) :
    Except String (List Nat) := do
  let data ← _b58decode s
  let payload := data.take (data.length - 4)
  let cksum := data.drop (data.length - 4)
  let expected := (sha256 (sha256 payload)).take 4
  if cksum = expected then pure payload else .error "Invalid base58 checksum"

deriving instance DecidableEq for Except

/-! ### Extended private keys (`_parse_xprv`, `_encode_tprv`, `_encode_tpub`) -/

/-- Model of Python `bytes([n])` (raises unless `0 ≤ n < 256`). -/
def pyByte (n : Nat) : Except String (List Nat) :=
  if n < 256 then .ok [n] else .error "bytes must be in range(0, 256)"

/-- Model of Python `i.to_bytes(w, "big")` on a possibly negative or
oversized `int` (raises `OverflowError` outside `[0, 256^w)`). -/
def intToBytesBE (w : Nat) (i : Int) : Except String (List Nat) :=
  if 0 ≤ i ∧ i < (256 : Int) ^ w then .ok (natToBytesBE w i.toNat)
  else .error "int out of range for to_bytes"

def _parse_xprv (sha256 : List Nat → List Nat) (xprv_b58 : String) :
    Except String (List Nat × List Nat) := do
  let payload ← _b58decode_check sha256 xprv_b58
  let chain_code := (payload.drop 13).take 32
  let key := (payload.drop 46).take 32
  pure (key, chain_code)

def _encode_tprv (sha256 : List Nat → List Nat) (key chain_code : List Nat)
    (depth : Nat) (fingerprint : List Nat) (child_num : Int) :
    Except String String := do
  let d ← pyByte depth
  let cn ← intToBytesBE 4 child_num
  pure (_b58encode_check sha256
    ([0x04, 0x35, 0x83, 0x94] ++ d ++ fingerprint ++ cn ++ chain_code ++ [0x00] ++ key))

def _encode_tpub (sha256 : List Nat → List Nat) (pubkey_bytes chain_code : List Nat)
    (depth : Nat) (fingerprint : List Nat) (child_num : Int) :
    Except String String := do
  let d ← pyByte depth
  let cn ← intToBytesBE 4 child_num
  pure (_b58encode_check sha256
    ([0x04, 0x35, 0x87, 0xCF] ++ d ++ fingerprint ++ cn ++ chain_code ++ pubkey_bytes))

/-- A fixed stand-in for the external SHA-256 function, used to instantiate
theorems at concrete inputs. -/
def sha256Dummy : List Nat → List Nat := fun _ => List.replicate 32 0

/-- The output-shape facts the external SHA-256 guarantees. -/
def GoodSha (sha256 : List Nat → List Nat) : Prop :=
  ∀ x, IsBytes (sha256 x) ∧ (sha256 x).length = 32

/-! ### Derivation-path parsing (`_parse_hdkeypath`) -/

/-- Digits-with-underscores tail of a Python integer literal: after an
initial digit, digits continue, with single underscores allowed between
digits. -/
def pyIntDigitsGo : Nat → List Char → Option Nat
  | acc, [] => some acc
  | acc, c :: cs =>
      if c.isDigit then pyIntDigitsGo (acc * 10 + (c.toNat - 48)) cs
      else if c = '_' then
        match cs with
        | [] => none
        | d :: cs' =>
            if d.isDigit then pyIntDigitsGo (acc * 10 + (d.toNat - 48)) cs' else none
      else none

/-- Model of Python `str.strip()` (ASCII whitespace). -/
def pyStrip (cs : List Char) : List Char :=
  ((cs.dropWhile (fun c => c.isWhitespace)).reverse.dropWhile
    (fun c => c.isWhitespace)).reverse

/-- Model of Python `int(s)` on ASCII strings: optional surrounding
whitespace, an optional sign, then ASCII digits with single underscores
allowed between digits.  (CPython additionally accepts non-ASCII decimal
digits; those are outside the scope of this model.) -/
def pyInt (s : String) : Except String Int :=
  let cs := pyStrip s.data
  let sign : Int := if cs.head? = some '-' then -1 else 1
  let rest := if cs.head? = some '+' ∨ cs.head? = some '-' then cs.tail else cs
  match rest with
  | [] => .error "invalid literal for int() with base 10"
  | d :: tl =>
      if d.isDigit then
        match pyIntDigitsGo (d.toNat - 48) tl with
        | some v => .ok (sign * v)
        | none => .error "invalid literal for int() with base 10"
      else .error "invalid literal for int() with base 10"

/-- Model of Python `str.split("/")`. -/
def pySplitSlash : List Char → List Char → List String
  | acc, [] => [String.mk acc.reverse]
  | acc, c :: cs =>
      if c = '/' then String.mk acc.reverse :: pySplitSlash [] cs
      else pySplitSlash (c :: acc) cs

/-- Model of Python `s.endswith(t)` for a one-character `t`. -/
def pyEndsWith (s : String) (c : Char) : Bool := s.data.getLast? = some c

/-- The `parts[1:] if parts[0] == "m" else parts` step of
`_parse_hdkeypath`. -/
def pathParts (path_str : String) : List String :=
  let parts := pySplitSlash [] (pyStrip path_str.data)
  match parts with
  | p :: rest => if p = "m" then rest else p :: rest
  | [] => []

/-- The loop body of `_parse_hdkeypath` for one segment. -/
def segIndex (p : String) : Except String Int :=
  if pyEndsWith p 'h' || pyEndsWith p '\'' then do
    let n ← pyInt (String.mk p.data.dropLast)
    pure (n + 0x80000000)
  else pyInt p

def _parse_hdkeypath (path_str : String) : Except String (List Int) :=
  (pathParts path_str).mapM segIndex

/-- The spec's segment pattern `\d+[h']?` as an executable predicate. -/
def matchesSeg (s : String) : Bool :=
  let core := if pyEndsWith s 'h' || pyEndsWith s '\'' then s.data.dropLast else s.data
  decide (core ≠ []) && core.all (fun c => c.isDigit)

/-- Decimal value of a digit string, most significant digit first. -/
def decimalVal (cs : List Char) : Nat :=
  cs.foldl (fun a c => a * 10 + (c.toNat - 48)) 0

/-! ### secp256k1 arithmetic (`_ec_point_add`, `_ec_point_mul`,
`_privkey_to_compressed_pubkey`) -/

def _SECP256K1_P : Nat :=
  0xFFFFFFFFFFFFFFFFFFFFFFFFFFFFFFFFFFFFFFFFFFFFFFFFFFFFFFFEFFFFFC2F

def _SECP256K1_N : Nat :=
  0xFFFFFFFFFFFFFFFFFFFFFFFFFFFFFFFEBAAEDCE6AF48A03BBFD25E8CD0364141

def _SECP256K1_Gx : Nat :=
  0x79BE667EF9DCBBAC55A06295CE870B07029BFCDB2DCE28D959F2815B16F81798

def _SECP256K1_Gy : Nat :=
  0x483ADA7726A3C4655DA4FBFC0E1108A8FD17B448A68554199C47D08FFB10D4B8

/-- Model of Python `pow(b, e, m)` on a possibly negative base (Python
reduces the base modulo `m` first; `%` on a positive modulus is
non-negative in both Python and Lean's `Int.emod`). -/
def powModInt (b : Int) (e : Nat) (m : Int) : Int :=
  (powMod (b % m).toNat e m.toNat : Nat)

/-- `_ec_point_add`: affine point addition; `none` is the identity. -/
def _ec_point_add (p1 p2 : Option (Int × Int)) : Option (Int × Int) :=
  match p1, p2 with
  | none, _ => p2
  | _, none => p1
  | some (x1, y1), some (x2, y2) =>
      let P : Int := _SECP256K1_P
      if x1 = x2 ∧ y1 ≠ y2 then none
      else
        let lam :=
          if x1 = x2 then
            3 * x1 * x1 * powModInt (2 * y1) (_SECP256K1_P - 2) P % P
          else
            (y2 - y1) * powModInt (x2 - x1) (_SECP256K1_P - 2) P % P
        let x3 := (lam * lam - x1 - x2) % P
        let y3 := (lam * (x1 - x3) - y1) % P
        some (x3, y3)

/-- The `while k` loop of `_ec_point_mul` (fuel-structured double and add;
the fuel `k` bounds the number of halvings). -/
def ecMulGo : Nat → Nat → Option (Int × Int) → Option (Int × Int) → Option (Int × Int)
  | 0, _, result, _ => result
  | fuel + 1, k, result, addend =>
      if k = 0 then result
      else
        ecMulGo fuel (k / 2)
          (if k % 2 = 1 then _ec_point_add result addend else result)
          (_ec_point_add addend addend)

def _ec_point_mul (k : Nat) (point : Option (Int × Int)) : Option (Int × Int) :=
  ecMulGo k k none point

/-- `_privkey_to_compressed_pubkey`; unpacking `x, y = None` raises in
Python, hence the `Except`. -/
def _privkey_to_compressed_pubkey (key_bytes : List Nat) : Except String (List Nat) :=
  match _ec_point_mul (natFromBytesBE key_bytes) (some (_SECP256K1_Gx, _SECP256K1_Gy)) with
  | none => .error "cannot unpack non-iterable NoneType object"
  | some (x, y) =>
      .ok ((if y % 2 = 0 then [0x02] else [0x03]) ++ natToBytesBE 32 x.toNat)

/-! ### BIP-32 (`_bip32_derive_child`, `_seed_to_master_key`) and WIF -/

def _bip32_derive_child (hmacSha512 : List Nat → List Nat → List Nat)
    (key chain_code : List Nat) (index : Int) :
    Except String (List Nat × List Nat) := do
  let data ←
    if (0x80000000 : Int) ≤ index then do
      let i4 ← intToBytesBE 4 index
      pure ([0x00] ++ key ++ i4)
    else do
      let pub ← _privkey_to_compressed_pubkey key
      let i4 ← intToBytesBE 4 index
      pure (pub ++ i4)
  let I := hmacSha512 chain_code data
  let child_key := (natFromBytesBE (I.take 32) + natFromBytesBE key) % _SECP256K1_N
  pure (natToBytesBE 32 child_key, I.drop 32)

/-- The byte string `b"Bitcoin seed"`. -/
def bitcoinSeedKey : List Nat := [66, 105, 116, 99, 111, 105, 110, 32, 115, 101, 101, 100]

def _seed_to_master_key (hmacSha512 : List Nat → List Nat → List Nat)
    (seed_bytes : List Nat) : List Nat × List Nat :=
  let I := hmacSha512 bitcoinSeedKey seed_bytes
  (I.take 32, I.drop 32)

def _privkey_to_wif (sha256 : List Nat → List Nat) (key_bytes : List Nat)
    (testnet : Bool) : String :=
  let ver := if testnet then [0xEF] else [0x80]
  _b58encode_check sha256 (ver ++ key_bytes ++ [0x01])

def derive_privkey_wif (sha256 : List Nat → List Nat)
    (hmacSha512 : List Nat → List Nat → List Nat)
    (xprv_b58 hdkeypath : String) : Except String String := do
  let kc ← _parse_xprv sha256 xprv_b58
  let indices ← _parse_hdkeypath hdkeypath
  let kc ← indices.foldlM
    (fun (kc : List Nat × List Nat) index =>
      _bip32_derive_child hmacSha512 kc.1 kc.2 index) kc
  pure (_privkey_to_wif sha256 kc.1 true)

/-- The output-shape facts the external HMAC-SHA-512 guarantees. -/
def GoodHmac (hmacSha512 : List Nat → List Nat → List Nat) : Prop :=
  ∀ k m, IsBytes (hmacSha512 k m) ∧ (hmacSha512 k m).length = 64

/-- A fixed stand-in for the external HMAC-SHA-512 function. -/
def hmacDummy : List Nat → List Nat → List Nat := fun _ _ => List.replicate 64 0

/-- A stand-in HMAC returning all `0xFF` bytes, exhibiting an
out-of-range `I_L`. -/
def hmacFF : List Nat → List Nat → List Nat := fun _ _ => List.replicate 64 255

/-! ### BIP-39 (`_entropy_to_mnemonic`, `_mnemonic_to_seed`) -/

/-- Big-endian bits of `n`, fixed width. -/
def natToBitsBE : Nat → Nat → List Bool
  | 0, _ => []
  | w + 1, n => natToBitsBE w (n / 2) ++ [n % 2 == 1]

/-- Model of Python `bin(n)[2:].zfill(width)` as a bit list. -/
def pyBinZfill (width n : Nat) : List Bool :=
  natToBitsBE (max width (pyBitLength n)) n

/-- Model of Python `int(s, 2)` on a bit string. -/
def bitsToNat (bs : List Bool) : Nat :=
  bs.foldl (fun a b => a * 2 + (if b then 1 else 0)) 0

/-- The `for i in range(0, len(all_bits), 11)` slicing loop. -/
def chunk11Go : Nat → List Bool → List (List Bool)
  | 0, _ => []
  | _, [] => []
  | fuel + 1, l => l.take 11 :: chunk11Go fuel (l.drop 11)

/-- The `entropy ‖ checksum` bit string of `_entropy_to_mnemonic`:
`bin(int.from_bytes(entropy))[2:].zfill(ent_bits)` followed by the first
`ent_bits/32` bits of `bin(h[0])[2:].zfill(8)`. -/
def bip39AllBits (sha256 : List Nat → List Nat) (entropy_bytes : List Nat) : List Bool :=
  pyBinZfill (entropy_bytes.length * 8) (natFromBytesBE entropy_bytes)
    ++ (pyBinZfill 8 ((sha256 entropy_bytes).headD 0)).take
        (entropy_bytes.length * 8 / 32)

/-- The word list of `_entropy_to_mnemonic` before `" ".join`.  The
2048-entry English word list lives in `bip39_english.py`, which is not part
of the sources here; it is passed as the `words` parameter. -/
def _entropy_to_mnemonic_words (sha256 : List Nat → List Nat) (words : List String)
    (entropy_bytes : List Nat) : List String :=
  (chunk11Go (bip39AllBits sha256 entropy_bytes).length
    (bip39AllBits sha256 entropy_bytes)).map (fun g => words.getD (bitsToNat g) "")

def _entropy_to_mnemonic (sha256 : List Nat → List Nat) (words : List String)
    (entropy_bytes : List Nat) : String :=
  String.intercalate " " (_entropy_to_mnemonic_words sha256 words entropy_bytes)

/-- Model of Python `str.encode("utf-8")` for ASCII strings (the mnemonic
words and the `"mnemonic"` salt prefix are ASCII). -/
def pyEncodeAscii (s : String) : List Nat := s.data.map (fun c => c.toNat)

/-- `_mnemonic_to_seed`; PBKDF2-HMAC-SHA-512 is external to the repository
and passed as a parameter taking password, salt and the iteration count. -/
def _mnemonic_to_seed (pbkdf2HmacSha512 : List Nat → List Nat → Nat → List Nat)
    (mnemonic : String) (passphrase : String) : List Nat :=
  pbkdf2HmacSha512 (pyEncodeAscii mnemonic)
    (pyEncodeAscii (String.append "mnemonic" passphrase)) 2048

/-- The spec's entropy-size to word-count table. -/
def bip39WordCount : Nat → Nat
  | 16 => 12
  | 20 => 15
  | 24 => 18
  | 28 => 21
  | 32 => 24
  | _ => 0

/-! ### RIPEMD-160 (`_ripemd160_fallback`) and HASH160 -/

/-- The round function `f(j, x, y, z)`; Python's `~x` on a value `< 2^32`
masked back to 32 bits equals `x ^^^ 0xFFFFFFFF`. -/
def ripemdF (j x y z : Nat) : Nat :=
  if j < 16 then x ^^^ y ^^^ z
  else if j < 32 then (x &&& y) ||| ((x ^^^ 0xFFFFFFFF) &&& z)
  else if j < 48 then (x ||| (y ^^^ 0xFFFFFFFF)) ^^^ z
  else if j < 64 then (x &&& z) ||| (y &&& (z ^^^ 0xFFFFFFFF))
  else x ^^^ (y ||| (z ^^^ 0xFFFFFFFF))

def K_LEFT : List Nat := [0x00000000, 0x5A827999, 0x6ED9EBA1, 0x8F1BBCDC, 0xA953FD4E]

def K_RIGHT : List Nat := [0x50A28BE6, 0x5C4DD124, 0x6D703EF3, 0x7A6D76E9, 0x00000000]

def RL : List Nat :=
  [0,1,2,3,4,5,6,7,8,9,10,11,12,13,14,15,
   7,4,13,1,10,6,15,3,12,0,9,5,2,14,11,8,
   3,10,14,4,9,15,8,1,2,7,0,6,13,11,5,12,
   1,9,11,10,0,8,12,4,13,3,7,15,14,5,6,2,
   4,0,5,9,7,12,2,10,14,1,3,8,11,6,15,13]

def RR : List Nat :=
  [5,14,7,0,9,2,11,4,13,6,15,8,1,10,3,12,
   6,11,3,7,0,13,5,10,14,15,8,12,4,9,1,2,
   15,5,1,3,7,14,6,9,11,8,12,2,10,0,4,13,
   8,6,4,1,3,11,15,0,5,12,2,13,9,7,10,14,
   12,15,10,4,1,5,8,7,6,2,13,14,0,3,9,11]

def SL : List Nat :=
  [11,14,15,12,5,8,7,9,11,13,14,15,6,7,9,8,
   7,6,8,13,11,9,7,15,7,12,15,9,11,7,13,12,
   11,13,6,7,14,9,13,15,14,8,13,6,5,12,7,5,
   11,12,14,15,14,15,9,8,9,14,5,6,8,6,5,12,
   9,15,5,11,6,8,13,12,5,12,13,14,11,8,5,6]

def SR : List Nat :=
  [8,9,9,11,13,15,15,5,7,7,8,11,14,14,12,6,
   9,13,15,7,12,8,9,11,7,7,12,7,6,15,13,11,
   9,7,15,11,8,6,6,14,12,13,5,14,13,13,7,5,
   15,5,8,11,14,14,6,14,6,9,12,9,12,5,15,8,
   8,5,12,9,12,5,14,6,8,13,6,5,15,13,11,11]

def rol32 (x n : Nat) : Nat := ((x <<< n) ||| (x >>> (32 - n))) &&& 0xFFFFFFFF

/-- Model of Python `n.to_bytes(w, "little")`. -/
def natToBytesLE : Nat → Nat → List Nat
  | 0, _ => []
  | w + 1, n => n % 256 :: natToBytesLE w (n / 256)

/-- Model of Python `int.from_bytes(bs, "little")`. -/
def natFromBytesLE (bs : List Nat) : Nat :=
  bs.foldr (fun b acc => acc * 256 + b) 0

/-- The RIPEMD-160 message padding: `0x80`, zeros to 56 mod 64, then the
bit length as 8 little-endian bytes. -/
def ripemdPad (message : List Nat) : List Nat :=
  let l := message.length * 8
  let afterOne := message ++ [0x80]
  let padZeros := (56 + 64 - afterOne.length % 64) % 64
  afterOne ++ List.replicate padZeros 0 ++ natToBytesLE 8 l

structure RState where
  al : Nat
  bl : Nat
  cl : Nat
  dl : Nat
  el : Nat
  ar : Nat
  br : Nat
  cr : Nat
  dr : Nat
  er : Nat

/-- One of the 80 rounds over the left and right pipelines. -/
def ripemdRound (X : List Nat) (st : RState) (j : Nat) : RState :=
  let rnd := j / 16
  let TL0 := (st.al + ripemdF j st.bl st.cl st.dl + X.getD (RL.getD j 0) 0
    + K_LEFT.getD rnd 0) &&& 0xFFFFFFFF
  let TL := (rol32 TL0 (SL.getD j 0) + st.el) &&& 0xFFFFFFFF
  let TR0 := (st.ar + ripemdF (79 - j) st.br st.cr st.dr + X.getD (RR.getD j 0) 0
    + K_RIGHT.getD rnd 0) &&& 0xFFFFFFFF
  let TR := (rol32 TR0 (SR.getD j 0) + st.er) &&& 0xFFFFFFFF
  { al := st.el, bl := TL, cl := st.bl, dl := rol32 st.cl 10, el := st.dl,
    ar := st.er, br := TR, cr := st.br, dr := rol32 st.cr 10, er := st.dr }

/-- One 64-byte chunk: load the sixteen little-endian words, run the 80
rounds, recombine with the chaining values. -/
def ripemdChunk (h : List Nat) (chunkBytes : List Nat) : List Nat :=
  match h with
  | [h0, h1, h2, h3, h4] =>
      let X := (List.range 16).map
        (fun j => natFromBytesLE ((chunkBytes.drop (j * 4)).take 4))
      let st := (List.range 80).foldl (ripemdRound X)
        ⟨h0, h1, h2, h3, h4, h0, h1, h2, h3, h4⟩
      [(h1 + st.cl + st.dr) &&& 0xFFFFFFFF,
       (h2 + st.dl + st.er) &&& 0xFFFFFFFF,
       (h3 + st.el + st.ar) &&& 0xFFFFFFFF,
       (h4 + st.al + st.br) &&& 0xFFFFFFFF,
       (h0 + st.bl + st.cr) &&& 0xFFFFFFFF]
  | _ => h

/-- The 64-byte chunking loop `for i in range(0, len(msg), 64)`. -/
def chunks64Go : Nat → List Nat → List (List Nat)
  | 0, _ => []
  | _, [] => []
  | fuel + 1, l => l.take 64 :: chunks64Go fuel (l.drop 64)

def _ripemd160_fallback (message : List Nat) : List Nat :=
  let msg := ripemdPad message
  let hs := (chunks64Go msg.length msg).foldl ripemdChunk
    [0x67452301, 0xEFCDAB89, 0x98BADCFE, 0x10325476, 0xC3D2E1F0]
  (hs.map (natToBytesLE 4)).flatten

/-- `_ripemd160` prefers the platform implementation and falls back to the
pure one; both compute the same function, so the fallback is the model. -/
def _ripemd160 (data : List Nat) : List Nat := _ripemd160_fallback data

def _hash160 (sha256 : List Nat → List Nat) (data : List Nat) : List Nat :=
  _ripemd160 (sha256 data)

/-! ### Bech32 (BIP-173) -/

def _BECH32_CHARSET : String := "qpzry9x8gf2tvdw0s3jn54khce6mua7l"

def bech32Char (d : Nat) : Char := _BECH32_CHARSET.data.getD d ' '

def GEN : List Nat := [0x3b6a57b2, 0x26508e6d, 0x1ea119fa, 0x3d4233dd, 0x2a1462b3]

def _bech32_polymod (values : List Nat) : Nat :=
  values.foldl
    (fun chk v =>
      let b := chk >>> 25
      let chk2 := ((chk &&& 0x1ffffff) <<< 5) ^^^ v
      (List.range 5).foldl
        (fun c i => if (b >>> i) &&& 1 = 1 then c ^^^ GEN.getD i 0 else c) chk2)
    1

def _bech32_hrp_expand (hrp : String) : List Nat :=
  hrp.data.map (fun c => c.toNat >>> 5) ++ [0] ++ hrp.data.map (fun c => c.toNat &&& 31)

def _bech32_create_checksum (hrp : String) (data : List Nat) : List Nat :=
  let values := _bech32_hrp_expand hrp ++ data
  let pm := _bech32_polymod (values ++ [0, 0, 0, 0, 0, 0]) ^^^ 1
  (List.range 6).map (fun i => (pm >>> (5 * (5 - i))) &&& 31)

def _bech32_encode (hrp : String) (data : List Nat) : String :=
  let combined := data ++ _bech32_create_checksum hrp data
  hrp ++ "1" ++ String.mk (combined.map bech32Char)

/-- The inner `while bits >= tobits` loop of `_convertbits`. -/
def convertbitsLoop (tobits maxv : Nat) : Nat → Nat → Nat → List Nat → Nat × List Nat
  | 0, _, bits, ret => (bits, ret)
  | fuel + 1, acc, bits, ret =>
      if tobits ≤ bits then
        convertbitsLoop tobits maxv fuel acc (bits - tobits)
          (ret ++ [(acc >>> (bits - tobits)) &&& maxv])
      else (bits, ret)

def convertbitsStep (frombits tobits maxv : Nat)
    (st : Nat × Nat × List Nat) (value : Nat) : Nat × Nat × List Nat :=
  let acc := (st.1 <<< frombits) ||| value
  let bits := st.2.1 + frombits
  let br := convertbitsLoop tobits maxv bits acc bits st.2.2
  (acc, br.1, br.2)

def _convertbits (data : List Nat) (frombits tobits : Nat) (pad : Bool) :
    Option (List Nat) :=
  let maxv := (1 <<< tobits) - 1
  let st := data.foldl (convertbitsStep frombits tobits maxv) (0, 0, [])
  if pad then
    if st.2.1 ≠ 0 then some (st.2.2 ++ [(st.1 <<< (tobits - st.2.1)) &&& maxv])
    else some st.2.2
  else if frombits ≤ st.2.1 ∨ ((st.1 <<< (tobits - st.2.1)) &&& maxv) ≠ 0 then none
  else some st.2.2

/-- `_pubkey_to_bech32_address`; a `None` from `_convertbits` would make
`[0] + data5` raise in Python, hence the `Except`. -/
def _pubkey_to_bech32_address (sha256 : List Nat → List Nat)
    (pubkey_bytes : List Nat) (hrp : String) : Except String String :=
  match _convertbits (_hash160 sha256 pubkey_bytes) 8 5 true with
  | none => .error "unsupported operand type for +"
  | some data5 => .ok (_bech32_encode hrp ([0] ++ data5))

/-! ### HD synthesis orchestrator (`_full_hd_generate`) -/

def hexChar (n : Nat) : Char := "0123456789abcdef".data.getD n ' '

/-- Model of Python `bytes.hex()`. -/
def bytesToHex (bs : List Nat) : String :=
  String.mk ((bs.map (fun b => [hexChar (b / 16), hexChar (b % 16)])).flatten)

structure GenResult where
  entropy_hex : String
  entropy_bits : Nat
  mnemonic : String
  seed_hex : String
  master_xprv : String
  master_xpub : String
  derivation_path : String
  derivation_chain : List (String × String × String)
  private_key_wif : String
  public_key_hex : String
  address : String

/-- The body of the `for i, idx in enumerate(indices)` loop of
`_full_hd_generate`; the state carries the running index `i`, the current
key and chain code, and the accumulated `derivation_chain` entries. -/
def genStep (sha256 : List Nat → List Nat)
    (hmacSha512 : List Nat → List Nat → List Nat) (path_parts : List String)
    (st : Nat × List Nat × List Nat × List (String × String × String))
    (idx : Int) :
    Except String (Nat × List Nat × List Nat × List (String × String × String)) := do
  let i := st.1
  let key := st.2.1
  let chain := st.2.2.1
  let parent_pub ← _privkey_to_compressed_pubkey key
  let fingerprint := (_hash160 sha256 parent_pub).take 4
  let kc ← _bip32_derive_child hmacSha512 key chain idx
  let depth := i + 1
  let pub ← _privkey_to_compressed_pubkey kc.1
  let level_path := String.intercalate "/" (path_parts.take (depth + 1))
  let xprv ← _encode_tprv sha256 kc.1 kc.2 depth fingerprint idx
  let xpub ← _encode_tpub sha256 pub kc.2 depth fingerprint idx
  pure (i + 1, kc.1, kc.2, st.2.2.2 ++ [(level_path, xprv, xpub)])

/-- The end-to-end wallet synthesis.  The entropy draw (`os.urandom`) is the
one side effect of the source; the drawn bytes are passed in as `entropy`
(the spec's test seam), and `entropy_bits` is `8 * len(entropy)`. -/
def _full_hd_generate (sha256 : List Nat → List Nat)
    (hmacSha512 : List Nat → List Nat → List Nat)
    (pbkdf2HmacSha512 : List Nat → List Nat → Nat → List Nat)
    (words : List String) (entropy : List Nat)
    (passphrase : String) (derivation_path : String) :
    Except String GenResult := do
  let mnemonic := _entropy_to_mnemonic sha256 words entropy
  let seed := _mnemonic_to_seed pbkdf2HmacSha512 mnemonic passphrase
  let mkc := _seed_to_master_key hmacSha512 seed
  let master_pub ← _privkey_to_compressed_pubkey mkc.1
  let master_tprv ← _encode_tprv sha256 mkc.1 mkc.2 0 [0, 0, 0, 0] 0
  let master_tpub ← _encode_tpub sha256 master_pub mkc.2 0 [0, 0, 0, 0] 0
  let indices ← _parse_hdkeypath derivation_path
  let path_parts := pySplitSlash [] (pyStrip derivation_path.data)
  let st ← indices.foldlM (genStep sha256 hmacSha512 path_parts)
    (0, mkc.1, mkc.2, [("m", master_tprv, master_tpub)])
  let privkey_wif := _privkey_to_wif sha256 st.2.1 true
  let pubkey ← _privkey_to_compressed_pubkey st.2.1
  let address ← _pubkey_to_bech32_address sha256 pubkey "crnrt"
  pure {
    entropy_hex := bytesToHex entropy
    entropy_bits := entropy.length * 8
    mnemonic := mnemonic
    seed_hex := bytesToHex seed
    master_xprv := master_tprv
    master_xpub := master_tpub
    derivation_path := derivation_path
    derivation_chain := st.2.2.2
    private_key_wif := privkey_wif
    public_key_hex := bytesToHex pubkey
    address := address }

/-- A fixed stand-in for the external PBKDF2-HMAC-SHA-512 function. -/
def pbkdf2Dummy : List Nat → List Nat → Nat → List Nat := fun _ _ _ => List.replicate 64 0

/-! ### Primality certificates (Pratt / Lucas) for the secp256k1 field prime -/

def certProd (qs : List (Nat × Nat)) : Nat := (qs.map (fun qe => qe.1 ^ qe.2)).prod

/-- The short Weierstrass curve y^2 = x^3 + 7 over the field of P elements. -/
def secpCurve : WeierstrassCurve.Affine (ZMod _SECP256K1_P) :=
  { a₁ := 0, a₂ := 0, a₃ := 0, a₄ := 0, a₆ := 7 }

/-- The claim's curve-membership invariant: the identity (`None`), or an
affine point with canonically reduced coordinates satisfying
`y^2 = x^3 + 7 (mod P)` — the representation the program's points always
use, every produced coordinate being reduced `% P`. -/
def onCurve (pt : Option (Int × Int)) : Prop :=
  match pt with
  | none => True
  | some (x, y) =>
      0 ≤ x ∧ x < (_SECP256K1_P : Int) ∧ 0 ≤ y ∧ y < (_SECP256K1_P : Int) ∧
      (y ^ 2 - (x ^ 3 + 7)) % (_SECP256K1_P : Int) = 0

instance onCurve_decidable (pt : Option (Int × Int)) : Decidable (onCurve pt) :=
  match pt with
  | none => isTrue trivial
  | some (x, y) => inferInstanceAs (Decidable (_ ∧ _))

theorem bitLenGo_eq (fuel n : Nat) (h : n ≤ fuel) :
    bitLenGo fuel n = if n = 0 then 0 else Nat.log 2 n + 1 := by
  induction fuel generalizing n with
  | zero =>
      interval_cases n
      rfl
  | succ fuel ih =>
      unfold bitLenGo
      rcases Nat.eq_zero_or_pos n with rfl | hn
      · simp
      · rw [if_neg (by omega), if_neg (by omega),
          ih (n / 2) (by have := Nat.div_lt_self hn (by norm_num : 1 < 2); omega)]
        rcases Nat.lt_or_ge n 2 with h2 | h2
        · interval_cases n
          simp [Nat.log]
        · rw [if_neg (by omega), Nat.log_div_base 2 n]
          have := Nat.log_pos (by norm_num : 1 < 2) h2
          omega

theorem pyBitLength_eq (n : Nat) :
    pyBitLength n = if n = 0 then 0 else Nat.log 2 n + 1 :=
  bitLenGo_eq n n le_rfl

theorem natToBytesBE_zero (w : Nat) : natToBytesBE w 0 = List.replicate w 0 := by
  induction w with
  | zero => rfl
  | succ w ih =>
      show natToBytesBE w (0 / 256) ++ [0 % 256] = _
      rw [Nat.zero_div, ih]
      simp [List.replicate_succ']

theorem length_natToBytesBE (w n : Nat) : (natToBytesBE w n).length = w := by
  induction w generalizing n with
  | zero => rfl
  | succ w ih => simp [natToBytesBE, ih]

theorem isBytes_natToBytesBE (w n : Nat) : IsBytes (natToBytesBE w n) := by
  induction w generalizing n with
  | zero => intro b hb; simp [natToBytesBE] at hb
  | succ w ih =>
      intro b hb
      simp only [natToBytesBE, List.mem_append, List.mem_singleton] at hb
      rcases hb with hb | hb
      · exact ih _ b hb
      · subst hb; exact Nat.mod_lt _ (by norm_num)

/-- On the exact width, `natToBytesBE` produces the canonical (no leading
zero byte) big-endian digit string, with leading zeros for larger widths. -/
theorem natToBytesBE_eq_digits (w n : Nat) (h : n < 256 ^ w) :
    natToBytesBE w n =
      List.replicate (w - (Nat.digits 256 n).length) 0 ++ (Nat.digits 256 n).reverse := by
  induction w generalizing n with
  | zero =>
      interval_cases n
      simp [natToBytesBE]
  | succ w ih =>
      rcases Nat.eq_zero_or_pos n with rfl | hn
      · rw [natToBytesBE_zero]
        simp
      · rw [Nat.digits_def' (by norm_num : 1 < 256) hn]
        have hdiv : n / 256 < 256 ^ w := by
          rw [Nat.div_lt_iff_lt_mul (by norm_num)]
          calc n < 256 ^ (w + 1) := h
          _ = 256 ^ w * 256 := by ring
        have := ih (n / 256) hdiv
        show natToBytesBE w (n / 256) ++ [n % 256] = _
        rw [this]
        simp only [List.reverse_cons, List.length_cons]
        rw [List.append_assoc]
        congr 2
        omega

theorem pyBitLength_div8 (n : Nat) (hn : n ≠ 0) :
    (pyBitLength n + 7) / 8 = Nat.log 256 n + 1 := by
  have h256 : (256 : Nat) = 2 ^ 8 := by norm_num
  have hlog : Nat.log 256 n = Nat.log 2 n / 8 := by
    rcases Nat.lt_or_ge n 1 with h | h
    · omega
    · have h2 : 2 ^ Nat.log 2 n ≤ n := Nat.pow_log_le_self 2 (by omega)
      have h3 : n < 2 ^ (Nat.log 2 n + 1) := Nat.lt_pow_succ_log_self (by norm_num) n
      apply Nat.log_eq_of_pow_le_of_lt_pow
      · rw [h256, ← Nat.pow_mul]
        calc 2 ^ (8 * (Nat.log 2 n / 8)) ≤ 2 ^ Nat.log 2 n := by
              apply Nat.pow_le_pow_right (by norm_num)
              omega
        _ ≤ n := h2
      · rw [h256, ← Nat.pow_mul]
        calc n < 2 ^ (Nat.log 2 n + 1) := h3
        _ ≤ 2 ^ (8 * (Nat.log 2 n / 8 + 1)) := by
              apply Nat.pow_le_pow_right (by norm_num)
              omega
  rw [pyBitLength_eq, if_neg hn, hlog]
  omega

theorem byteLen_eq_digits_len (n : Nat) :
    (pyBitLength n + 7) / 8 = (Nat.digits 256 n).length := by
  rcases Nat.eq_zero_or_pos n with rfl | hn
  · simp [pyBitLength, bitLenGo]
  · rw [pyBitLength_div8 n (by omega), Nat.digits_len 256 n (by norm_num) (by omega)]

/-- Folding `a * b + d` over a big-endian digit list computes its value. -/
theorem foldl_base_eq (b : Nat) (l : List Nat) (a : Nat) :
    l.foldl (fun n d => n * b + d) a = a * b ^ l.length + Nat.ofDigits b l.reverse := by
  induction l generalizing a with
  | nil => simp [Nat.ofDigits]
  | cons d tl ih =>
      simp only [List.foldl_cons, List.reverse_cons, List.length_cons]
      rw [ih, Nat.ofDigits_append]
      simp [Nat.ofDigits, pow_succ]
      ring

theorem natFromBytesBE_eq_ofDigits (bs : List Nat) :
    natFromBytesBE bs = Nat.ofDigits 256 bs.reverse := by
  unfold natFromBytesBE
  rw [foldl_base_eq]
  simp

theorem powModGo_eq (m : Nat) (hm : 0 < m) :
    ∀ fuel e b, e ≤ fuel → powModGo m b fuel e = b ^ e % m := by
  intro fuel
  induction fuel with
  | zero =>
      intro e b he
      interval_cases e
      simp [powModGo]
  | succ fuel ih =>
      intro e b he
      unfold powModGo
      rcases Nat.eq_zero_or_pos e with rfl | he
      · simp
      · rw [if_neg (by omega)]
        have hdiv : e / 2 ≤ fuel := by omega
        rw [ih (e / 2) (b * b % m) hdiv]
        have hpow : (b * b % m) ^ (e / 2) % m = (b * b) ^ (e / 2) % m :=
          Nat.pow_mod _ _ _ ▸ (Nat.pow_mod (b * b) (e / 2) m).symm
        rcases Nat.even_or_odd e with heven | hodd
        · have h2 : e % 2 = 0 := Nat.even_iff.mp heven
          rw [if_neg (by omega), hpow, ← pow_two, ← pow_mul]
          have h3 : 2 * (e / 2) = e := by omega
          rw [h3]
        · have h2 : e % 2 = 1 := Nat.odd_iff.mp hodd
          rw [if_pos h2, hpow, ← pow_two, ← pow_mul, Nat.mod_mul_mod, ← pow_succ]
          have h3 : 2 * (e / 2) + 1 = e := by omega
          rw [h3]

theorem powMod_eq (b e m : Nat) (hm : 0 < m) : powMod b e m = b ^ e % m := by
  unfold powMod
  rw [powModGo_eq m hm e e (b % m) le_rfl, ← Nat.pow_mod]

/-! ### Base58 round trip -/

theorem exceptBind_ok {α β : Type} (a : α) (f : α → Except String β) :
    (Except.ok a >>= f) = f a := rfl

theorem exceptDotBind_ok {α β : Type} (a : α) (f : α → Except String β) :
    (Except.ok a).bind f = f a := rfl

theorem exceptBind_pure {α β : Type} (a : α) (f : α → Except String β) :
    ((pure a : Except String α) >>= f) = f a := rfl

theorem exceptDotBind_err {α β : Type} (e : String) (f : α → Except String β) :
    (Except.error e : Except String α).bind f = .error e := rfl

theorem exceptMap_err {α β : Type} (e : String) (f : α → β) :
    (Except.error e : Except String α).map f = .error e := rfl

theorem exceptMap_ok {α β : Type} (a : α) (f : α → β) :
    (Except.ok a : Except String α).map f = .ok (f a) := rfl

theorem b58CharVal_alpha : ∀ d, d < 58 → b58CharVal (b58Alpha d) = .ok d := by decide

theorem b58Alpha_ne_one : ∀ d, d < 58 → d ≠ 0 → b58Alpha d ≠ '1' := by decide

theorem b58CharVal_one : b58CharVal '1' = .ok 0 := by decide

theorem b58DigitChars_eq_digits (fuel n : Nat) (h : n ≤ fuel) :
    b58DigitChars fuel n = (Nat.digits 58 n).map b58Alpha := by
  induction fuel generalizing n with
  | zero =>
      interval_cases n
      simp [b58DigitChars]
  | succ fuel ih =>
      unfold b58DigitChars
      rcases Nat.eq_zero_or_pos n with rfl | hn
      · simp
      · rw [if_neg (by omega), Nat.digits_def' (by norm_num : 1 < 58) hn]
        have : n / 58 ≤ fuel := by
          have := Nat.div_lt_self hn (by norm_num : 1 < 58)
          omega
        rw [ih _ this]
        rfl

theorem exceptPure {α : Type} (a : α) : (pure a : Except String α) = .ok a := rfl

theorem ofDigits_replicate_zero (b k : Nat) :
    Nat.ofDigits b (List.replicate k 0) = 0 := by
  induction k with
  | zero => rfl
  | succ k ih => simp [List.replicate_succ, Nat.ofDigits_cons, ih]

theorem foldlM_ones (k : Nat) :
    (List.replicate k '1').foldlM (fun n c => do pure (n * 58 + (← b58CharVal c))) 0
      = Except.ok (ε := String) 0 := by
  induction k with
  | zero => rfl
  | succ k ih =>
      rw [List.replicate_succ, List.foldlM_cons]
      simp only [b58CharVal_one, exceptBind_ok, exceptPure]
      simpa using ih

theorem foldlM_alpha (ds : List Nat) (a : Nat) (h : ∀ d ∈ ds, d < 58) :
    (ds.map b58Alpha).foldlM (fun n c => do pure (n * 58 + (← b58CharVal c))) a
      = Except.ok (ε := String) (ds.foldl (fun n d => n * 58 + d) a) := by
  induction ds generalizing a with
  | nil => rfl
  | cons d tl ih =>
      have hd : d < 58 := h d (by simp)
      simp only [List.map_cons, List.foldlM_cons, List.foldl_cons]
      rw [b58CharVal_alpha d hd]
      simp only [exceptBind_ok, exceptPure]
      exact ih _ (fun x hx => h x (by simp [hx]))

theorem foldlM_b58_full (pad : Nat) (ds : List Nat) (h : ∀ d ∈ ds, d < 58) :
    (List.replicate pad '1' ++ (ds.map b58Alpha).reverse).foldlM
        (fun n c => do pure (n * 58 + (← b58CharVal c))) 0
      = Except.ok (ε := String) (Nat.ofDigits 58 ds) := by
  rw [List.foldlM_append, foldlM_ones, exceptBind_ok, ← List.map_reverse,
    foldlM_alpha _ 0 (fun d hd => h d (List.mem_reverse.mp hd)), foldl_base_eq]
  simp

theorem takeWhile_ones_replicate (pad : Nat) (rest : List Char)
    (h : rest = [] ∨ ∃ c tl, rest = c :: tl ∧ c ≠ '1') :
    ((List.replicate pad '1' ++ rest).takeWhile (fun c => c == '1')).length = pad := by
  induction pad with
  | zero =>
      simp only [List.replicate_zero, List.nil_append]
      rcases h with rfl | ⟨c, tl, rfl, hc⟩
      · rfl
      · rw [List.takeWhile_cons_of_neg]
        · rfl
        · simp only [beq_iff_eq]
          exact fun hcc => hc hcc
  | succ pad ih =>
      rw [List.replicate_succ, List.cons_append,
        List.takeWhile_cons_of_pos (by simp), List.length_cons, ih]

/-- The part of a byte list after its leading zero bytes is empty or starts
with a nonzero byte. -/
theorem dropWhile_zero_shape (l : List Nat) :
    l.dropWhile (fun b => b == 0) = []
      ∨ ∃ a tl, l.dropWhile (fun b => b == 0) = a :: tl ∧ a ≠ 0 := by
  induction l with
  | nil => left; rfl
  | cons x xs ih =>
      by_cases hx : x = 0
      · subst hx
        rw [List.dropWhile_cons_of_pos (by simp)]
        exact ih
      · right
        exact ⟨x, xs, List.dropWhile_cons_of_neg (by simp [hx]), hx⟩

/-- `_b58decode` inverts `_b58encode` on genuine byte strings: the central
round-trip fact shared by the extended-key and WIF layers. -/
theorem b58_roundtrip (data : List Nat) (hdata : IsBytes data) :
    _b58decode (_b58encode data) = Except.ok data := by
  have hsplit : data.takeWhile (fun b => b == 0) ++ data.dropWhile (fun b => b == 0)
      = data := List.takeWhile_append_dropWhile ..
  have htwrep : data.takeWhile (fun b => b == 0)
      = List.replicate (data.takeWhile (fun b => b == 0)).length 0 := by
    rw [List.eq_replicate_iff]
    exact ⟨rfl, fun b hb => by simpa using List.mem_takeWhile_imp hb⟩
  have hn : natFromBytesBE data
      = Nat.ofDigits 256 (data.dropWhile (fun b => b == 0)).reverse := by
    conv_lhs => rw [natFromBytesBE_eq_ofDigits, ← hsplit]
    rw [List.reverse_append, Nat.ofDigits_append]
    conv_lhs => rw [htwrep, List.reverse_replicate, ofDigits_replicate_zero]
    ring
  have hdwbytes : ∀ x ∈ (data.dropWhile (fun b => b == 0)).reverse, x < 256 := by
    intro x hx
    exact hdata x (List.Sublist.mem (List.mem_reverse.mp hx) (List.dropWhile_sublist _))
  have hdigits : Nat.digits 256 (natFromBytesBE data)
      = (data.dropWhile (fun b => b == 0)).reverse := by
    rcases dropWhile_zero_shape data with hshape | ⟨a, tl, hshape, ha⟩
    · rw [hn, hshape]
      simp
    · rw [hn]
      apply Nat.digits_ofDigits 256 (by norm_num) _ hdwbytes
      intro hne
      have hlast : (data.dropWhile (fun b => b == 0)).reverse.getLast hne
          = (data.dropWhile (fun b => b == 0)).head (by rw [hshape]; simp) :=
        List.getLast_reverse hne
      rw [hlast]
      have hhead : (data.dropWhile (fun b => b == 0)).head (by rw [hshape]; simp) = a := by
        rw [List.head_eq_iff_head?_eq_some, hshape]
        rfl
      rw [hhead]
      exact ha
  have hchars : (_b58encode data).data
      = List.replicate (data.takeWhile (fun b => b == 0)).length '1'
        ++ ((Nat.digits 58 (natFromBytesBE data)).map b58Alpha).reverse := by
    have h0 : (_b58encode data).data
        = List.replicate (data.takeWhile (fun b => b == 0)).length '1'
          ++ (b58DigitChars (natFromBytesBE data) (natFromBytesBE data)).reverse := rfl
    rw [h0, b58DigitChars_eq_digits _ _ le_rfl]
  have hdec : ∀ s : String, _b58decode s
      = (s.data.foldlM (fun n c => do pure (n * 58 + (← b58CharVal c))) 0) >>=
        fun n => Except.ok
          (List.replicate ((s.data.takeWhile (fun c => c == '1')).length) 0
            ++ natToBytesBE ((pyBitLength n + 7) / 8) n) := fun _ => rfl
  have hpad : (((List.replicate (data.takeWhile (fun b => b == 0)).length '1' ++
        ((Nat.digits 58 (natFromBytesBE data)).map b58Alpha).reverse)).takeWhile
        (fun c => c == '1')).length
      = (data.takeWhile (fun b => b == 0)).length := by
    apply takeWhile_ones_replicate
    rcases hds : (Nat.digits 58 (natFromBytesBE data)).reverse with _ | ⟨d, ds'⟩
    · left
      rw [← List.map_reverse, hds]
      rfl
    · right
      rw [← List.map_reverse, hds]
      refine ⟨b58Alpha d, _, rfl, ?_⟩
      have hdig : Nat.digits 58 (natFromBytesBE data) = ds'.reverse ++ [d] := by
        rw [← List.reverse_reverse (Nat.digits 58 (natFromBytesBE data)), hds]
        simp
      have hne0 : natFromBytesBE data ≠ 0 := by
        intro h0
        rw [h0] at hdig
        simp at hdig
      have hd58 : d < 58 :=
        Nat.digits_lt_base (by norm_num) (by rw [hdig]; simp)
      have hdignil : Nat.digits 58 (natFromBytesBE data) ≠ [] := by
        rw [hdig]; simp
      have h1 : (Nat.digits 58 (natFromBytesBE data)).getLast? = some d := by
        rw [hdig]
        simp
      rw [List.getLast?_eq_getLast _ hdignil] at h1
      have hnz : d ≠ 0 := by
        have h2 := Nat.getLast_digit_ne_zero 58 hne0
        intro h0
        apply h2
        rw [Option.some_injective _ h1, h0]
      exact b58Alpha_ne_one d hd58 hnz
  rw [hdec, hchars,
    foldlM_b58_full _ _ (fun d hd => Nat.digits_lt_base (by norm_num) hd),
    Nat.ofDigits_digits, exceptBind_ok, hpad, byteLen_eq_digits_len,
    natToBytesBE_eq_digits _ _
      (by
        conv_lhs => rw [← Nat.ofDigits_digits 256 (natFromBytesBE data)]
        exact Nat.ofDigits_lt_base_pow_length (by norm_num)
          (fun x hx => Nat.digits_lt_base (by norm_num) hx)),
    Nat.sub_self, List.replicate_zero, List.nil_append, hdigits,
    List.reverse_reverse]
  conv_lhs => rw [← htwrep]
  rw [hsplit]

theorem goodSha_sha256Dummy : GoodSha sha256Dummy := by
  intro x
  refine ⟨fun b hb => ?_, by simp [sha256Dummy]⟩
  simp only [sha256Dummy] at hb
  rcases List.eq_of_mem_replicate hb with rfl
  norm_num

theorem b58check_roundtrip (sha256 : List Nat → List Nat) (hsha : GoodSha sha256)
    (payload : List Nat) (hp : IsBytes payload) :
    _b58decode_check sha256 (_b58encode_check sha256 payload) = Except.ok payload := by
  have hck : IsBytes ((sha256 (sha256 payload)).take 4) := by
    intro b hb
    exact (hsha (sha256 payload)).1 b (List.mem_of_mem_take hb)
  have hcklen : ((sha256 (sha256 payload)).take 4).length = 4 := by
    rw [List.length_take, (hsha (sha256 payload)).2]
    norm_num
  have hbytes : IsBytes (payload ++ (sha256 (sha256 payload)).take 4) := by
    intro b hb
    rcases List.mem_append.mp hb with hb | hb
    · exact hp b hb
    · exact hck b hb
  show _b58decode_check sha256 (_b58encode (payload ++ (sha256 (sha256 payload)).take 4)) = _
  unfold _b58decode_check
  rw [b58_roundtrip _ hbytes, exceptBind_ok]
  have hlen : (payload ++ (sha256 (sha256 payload)).take 4).length - 4 = payload.length := by
    rw [List.length_append, hcklen]
    omega
  rw [hlen, List.take_left' rfl, List.drop_left' rfl, if_pos rfl]
  rfl

theorem isBytes_append {a b : List Nat} (ha : IsBytes a) (hb : IsBytes b) :
    IsBytes (a ++ b) := by
  intro x hx
  rcases List.mem_append.mp hx with h | h
  · exact ha x h
  · exact hb x h

/-- Parsing an encoded tprv recovers the key and chain code (shared by the
re-derivation equivalence and the serialization claims). -/
theorem parse_xprv_encode_tprv (sha256 : List Nat → List Nat) (hsha : GoodSha sha256)
    (key chain_code fingerprint : List Nat) (depth : Nat) (child_num : Int)
    (hkey : IsBytes key) (hkl : key.length = 32)
    (hch : IsBytes chain_code) (hcl : chain_code.length = 32)
    (hfp : IsBytes fingerprint) (hfl : fingerprint.length = 4)
    (hd : depth < 256) (hcn : 0 ≤ child_num ∧ child_num < (256 : Int) ^ 4) :
    (_encode_tprv sha256 key chain_code depth fingerprint child_num).bind
        (_parse_xprv sha256) = Except.ok (key, chain_code) := by
  have henc : _encode_tprv sha256 key chain_code depth fingerprint child_num
      = Except.ok (_b58encode_check sha256
          ([0x04, 0x35, 0x83, 0x94] ++ [depth] ++ fingerprint
            ++ natToBytesBE 4 child_num.toNat ++ chain_code ++ [0x00] ++ key)) := by
    have h1 : pyByte depth = Except.ok [depth] := by
      unfold pyByte
      rw [if_pos hd]
    have h2 : intToBytesBE 4 child_num = Except.ok (natToBytesBE 4 child_num.toNat) := by
      unfold intToBytesBE
      rw [if_pos hcn]
    unfold _encode_tprv
    rw [h1, exceptBind_ok, h2, exceptBind_ok]
    rfl
  rw [henc]
  show Except.bind (Except.ok _) (_parse_xprv sha256) = _
  rw [exceptDotBind_ok]
  have hdep : IsBytes [depth] := by
    intro x hx
    simp only [List.mem_singleton] at hx
    omega
  have hpayload : IsBytes ([0x04, 0x35, 0x83, 0x94] ++ [depth] ++ fingerprint
      ++ natToBytesBE 4 child_num.toNat ++ chain_code ++ [0x00] ++ key) :=
    isBytes_append (isBytes_append (isBytes_append (isBytes_append
      (isBytes_append (isBytes_append (by decide) hdep) hfp)
      (isBytes_natToBytesBE 4 _)) hch) (by decide)) hkey
  unfold _parse_xprv
  rw [b58check_roundtrip sha256 hsha _ hpayload, exceptBind_ok]
  have hassoc : ([0x04, 0x35, 0x83, 0x94] ++ [depth] ++ fingerprint
        ++ natToBytesBE 4 child_num.toNat ++ chain_code ++ [0x00] ++ key : List Nat)
      = ([0x04, 0x35, 0x83, 0x94] ++ [depth] ++ fingerprint
          ++ natToBytesBE 4 child_num.toNat) ++ (chain_code ++ ([0x00] ++ key)) := by
    simp [List.append_assoc]
  have hlen13 : ([0x04, 0x35, 0x83, 0x94] ++ [depth] ++ fingerprint
      ++ natToBytesBE 4 child_num.toNat : List Nat).length = 13 := by
    simp [hfl, length_natToBytesBE]
  have hlen46 : ([0x04, 0x35, 0x83, 0x94] ++ [depth] ++ fingerprint
      ++ natToBytesBE 4 child_num.toNat ++ chain_code ++ [0x00] : List Nat).length = 46 := by
    simp [hfl, hcl, length_natToBytesBE]
  conv_lhs => rw [hassoc, List.drop_left' hlen13, List.take_left' hcl]
  conv_lhs => rw [← hassoc, List.drop_left' hlen46, List.take_of_length_le (le_of_eq hkl)]
  rfl

/-- C4: for every byte string `b`, `_b58decode (_b58encode b) = b`; encoding
turns each leading zero byte into a leading `'1'` and decoding turns exactly
the leading `'1'` characters back into zero bytes; `encode [0x00, 0x01] = "12"`,
`decode "12" = [0x00, 0x01]`, and encoding the empty byte string gives `""`. -/
theorem C4_base58_roundtrip (b : List Nat) (hb : IsBytes b) :
    _b58decode (_b58encode b) = Except.ok b
      ∧ _b58encode [0x00, 0x01] = "12"
      ∧ _b58decode "12" = Except.ok [0x00, 0x01]
      ∧ _b58encode [] = "" := by
  refine ⟨b58_roundtrip b hb, by decide, by decide, by decide⟩

theorem C4_base58_roundtrip_witness :
    IsBytes [0x00, 0xAB, 0xCD]
      ∧ _b58decode (_b58encode [0x00, 0xAB, 0xCD]) = Except.ok [0x00, 0xAB, 0xCD] :=
  ⟨by decide, (C4_base58_roundtrip [0x00, 0xAB, 0xCD] (by decide)).1⟩

/-- C9: parsing the base58check tprv serialization recovers exactly the key
and chain code that were serialized, for any depth, fingerprint and 32-bit
child number. -/
theorem C9_tprv_parse_roundtrip (sha256 : List Nat → List Nat) (hsha : GoodSha sha256)
    (key chain_code fingerprint : List Nat) (depth cn : Nat)
    (hkey : IsBytes key) (hkl : key.length = 32)
    (hch : IsBytes chain_code) (hcl : chain_code.length = 32)
    (hfp : IsBytes fingerprint) (hfl : fingerprint.length = 4)
    (hd : depth < 256) (hcn : cn < 2 ^ 32) :
    (_encode_tprv sha256 key chain_code depth fingerprint (cn : Int)).bind
        (_parse_xprv sha256) = Except.ok (key, chain_code) := by
  apply parse_xprv_encode_tprv sha256 hsha key chain_code fingerprint depth _
    hkey hkl hch hcl hfp hfl hd
  constructor
  · exact Int.ofNat_nonneg cn
  · have : ((256 : Int) ^ 4) = ((2 ^ 32 : Nat) : Int) := by norm_num
    rw [this]
    exact_mod_cast hcn

theorem C9_tprv_parse_roundtrip_witness :
    (_encode_tprv sha256Dummy (List.replicate 32 7) (List.replicate 32 9)
        1 [1, 2, 3, 4] (5 : Int)).bind (_parse_xprv sha256Dummy)
      = Except.ok (List.replicate 32 7, List.replicate 32 9) :=
  C9_tprv_parse_roundtrip sha256Dummy goodSha_sha256Dummy
    (List.replicate 32 7) (List.replicate 32 9) [1, 2, 3, 4] 1 5
    (by decide) (by decide) (by decide) (by decide) (by decide) (by decide)
    (by decide) (by decide)

theorem digit_not_ws {c : Char} (h : c.isDigit = true) : c.isWhitespace = false := by
  by_cases hw : c.isWhitespace = true
  · have hcases : c = ' ' ∨ c = '\t' ∨ c = '\r' ∨ c = '\n' := by
      simpa [Char.isWhitespace, or_assoc] using hw
    rcases hcases with rfl | rfl | rfl | rfl <;> exact absurd h (by decide)
  · simpa using hw

theorem digit_ne {c x : Char} (h : c.isDigit = true) (hx : x.isDigit = false) : c ≠ x := by
  rintro rfl
  rw [h] at hx
  cases hx

theorem dropWhile_ws_of_digits (cs : List Char) (hd : ∀ c ∈ cs, c.isDigit) :
    cs.dropWhile (fun c => c.isWhitespace) = cs := by
  cases cs with
  | nil => rfl
  | cons c t =>
      exact List.dropWhile_cons_of_neg (by rw [digit_not_ws (hd c (by simp))]; simp)

theorem pyStrip_of_digits (cs : List Char) (hd : ∀ c ∈ cs, c.isDigit) :
    pyStrip cs = cs := by
  unfold pyStrip
  rw [dropWhile_ws_of_digits cs hd,
    dropWhile_ws_of_digits cs.reverse (fun c hc => hd c (List.mem_reverse.mp hc)),
    List.reverse_reverse]

theorem pyIntDigitsGo_digits (cs : List Char) (acc : Nat) (hd : ∀ c ∈ cs, c.isDigit) :
    pyIntDigitsGo acc cs = some (cs.foldl (fun a c => a * 10 + (c.toNat - 48)) acc) := by
  induction cs generalizing acc with
  | nil => rfl
  | cons c t ih =>
      unfold pyIntDigitsGo
      rw [if_pos (hd c (by simp)), ih _ (fun x hx => hd x (by simp [hx]))]
      rfl

theorem pyInt_digits (cs : List Char) (hne : cs ≠ []) (hd : ∀ c ∈ cs, c.isDigit) :
    pyInt (String.mk cs) = .ok ((decimalVal cs : Nat) : Int) := by
  unfold pyInt
  show (match
      (if (pyStrip cs).head? = some '+' ∨ (pyStrip cs).head? = some '-'
        then (pyStrip cs).tail else pyStrip cs) with
    | [] => Except.error "invalid literal for int() with base 10"
    | d :: tl =>
        if d.isDigit then
          match pyIntDigitsGo (d.toNat - 48) tl with
          | some v =>
              Except.ok ((if (pyStrip cs).head? = some '-' then (-1 : Int) else 1) * v)
          | none => Except.error "invalid literal for int() with base 10"
        else Except.error "invalid literal for int() with base 10") = _
  rw [pyStrip_of_digits cs hd]
  obtain ⟨d, t, rfl⟩ : ∃ d t, cs = d :: t := by
    cases cs with
    | nil => exact absurd rfl hne
    | cons d t => exact ⟨d, t, rfl⟩
  have hdd : d.isDigit = true := hd d (by simp)
  have hplus : (d :: t).head? ≠ some '+' := fun hc =>
    digit_ne hdd (show ('+' : Char).isDigit = false by decide) (Option.some.inj hc)
  have hminus : (d :: t).head? ≠ some '-' := fun hc =>
    digit_ne hdd (show ('-' : Char).isDigit = false by decide) (Option.some.inj hc)
  rw [if_neg (by rintro (h | h) <;> [exact hplus h; exact hminus h]), if_neg hminus]
  show (match d :: t with
    | [] => Except.error "invalid literal for int() with base 10"
    | d :: tl =>
        if d.isDigit then
          match pyIntDigitsGo (d.toNat - 48) tl with
          | some v => Except.ok ((1 : Int) * v)
          | none => Except.error "invalid literal for int() with base 10"
        else Except.error "invalid literal for int() with base 10") = _
  rw [show (match d :: t with
    | [] => Except.error "invalid literal for int() with base 10"
    | d :: tl =>
        if d.isDigit then
          match pyIntDigitsGo (d.toNat - 48) tl with
          | some v => Except.ok ((1 : Int) * v)
          | none => Except.error "invalid literal for int() with base 10"
        else Except.error "invalid literal for int() with base 10")
      = if d.isDigit then
          match pyIntDigitsGo (d.toNat - 48) t with
          | some v => Except.ok ((1 : Int) * v)
          | none => Except.error "invalid literal for int() with base 10"
        else Except.error "invalid literal for int() with base 10" from rfl]
  rw [if_pos hdd, pyIntDigitsGo_digits t _ (fun x hx => hd x (by simp [hx]))]
  show Except.ok _ = _
  congr 1
  rw [one_mul]
  unfold decimalVal
  norm_num

theorem exceptBind_err {α β : Type} (e : String) (f : α → Except String β) :
    ((Except.error e : Except String α) >>= f) = Except.error e := rfl

theorem exceptIsOk_ok {α : Type} (a : α) : (Except.ok (ε := String) a).isOk = true := rfl

theorem exceptIsOk_error {α : Type} (e : String) :
    (Except.error (α := α) e).isOk = false := rfl

theorem segIndex_digits_bare (cs : List Char) (hne : cs ≠ []) (hd : ∀ c ∈ cs, c.isDigit) :
    segIndex (String.mk cs) = .ok ((decimalVal cs : Nat) : Int) := by
  unfold segIndex
  have hlast : (String.mk cs).data.getLast? = some (cs.getLast hne) := by
    show cs.getLast? = _
    exact List.getLast?_eq_getLast cs hne
  have hdl : (cs.getLast hne).isDigit = true := hd _ (List.getLast_mem hne)
  have hh : pyEndsWith (String.mk cs) 'h' = false := by
    unfold pyEndsWith
    rw [hlast]
    apply decide_eq_false
    intro hc
    exact digit_ne hdl (show ('h' : Char).isDigit = false by decide) (Option.some.inj hc)
  have ha : pyEndsWith (String.mk cs) '\'' = false := by
    unfold pyEndsWith
    rw [hlast]
    apply decide_eq_false
    intro hc
    exact digit_ne hdl (show ('\'' : Char).isDigit = false by decide) (Option.some.inj hc)
  rw [hh, ha]
  show pyInt (String.mk cs) = _
  exact pyInt_digits cs hne hd

theorem segIndex_digits_hardened (cs : List Char) (hne : cs ≠ []) (hd : ∀ c ∈ cs, c.isDigit)
    (marker : Char) (hm : marker = 'h' ∨ marker = '\'') :
    segIndex (String.mk (cs ++ [marker])) = .ok (((decimalVal cs : Nat) : Int) + 2 ^ 31) := by
  unfold segIndex
  have hlast : (String.mk (cs ++ [marker])).data.getLast? = some marker := by
    show (cs ++ [marker]).getLast? = some marker
    simp
  have hcond : (pyEndsWith (String.mk (cs ++ [marker])) 'h'
      || pyEndsWith (String.mk (cs ++ [marker])) '\'') = true := by
    unfold pyEndsWith
    rw [hlast]
    rcases hm with rfl | rfl <;> simp
  rw [hcond]
  show (pyInt (String.mk (cs ++ [marker]).dropLast) >>=
    fun n => pure (n + 0x80000000)) = _
  have hdrop : (cs ++ [marker]).dropLast = cs := by simp
  rw [hdrop, pyInt_digits cs hne hd, exceptBind_ok]
  show Except.ok _ = _
  norm_num

theorem mapM_except_isOk {α β : Type} (f : α → Except String β) (l : List α) :
    (l.mapM f).isOk = true ↔ ∀ a ∈ l, (f a).isOk = true := by
  induction l with
  | nil => exact ⟨fun _ a ha => absurd ha (List.not_mem_nil a), fun _ => rfl⟩
  | cons a t ih =>
      rw [List.mapM_cons]
      constructor
      · intro h
        cases hfa : f a with
        | error e =>
            rw [hfa, exceptBind_err] at h
            cases h
        | ok b =>
            rw [hfa, exceptBind_ok] at h
            cases hml : t.mapM f with
            | error e =>
                rw [hml, exceptBind_err] at h
                cases h
            | ok bs =>
                intro x hx
                rcases List.mem_cons.mp hx with rfl | hx
                · rw [hfa]; rfl
                · exact (ih.mp (by rw [hml]; rfl)) x hx
      · intro h
        have hfa : (f a).isOk = true := h a (by simp)
        cases hfa' : f a with
        | error e =>
            rw [hfa'] at hfa
            cases hfa
        | ok b =>
            have ht : (t.mapM f).isOk = true := ih.mpr (fun x hx => h x (by simp [hx]))
            cases hml : t.mapM f with
            | error e =>
                rw [hml] at ht
                cases ht
            | ok bs => rfl

/-- C8 (counterexample): the segment `+5` does not match `\d+[h']?`, yet
`_parse_hdkeypath "m/+5"` succeeds with index 5, because Python `int()`
accepts an explicit sign. -/
theorem C8_counterexample :
    _parse_hdkeypath "m/+5" = Except.ok [5] ∧ matchesSeg "+5" = false := by
  exact ⟨by decide, by decide⟩

/-- C8 (amended): path parsing fails exactly when some segment after the
leading `m` is rejected by Python `int()` (after stripping one trailing
`h`/`'`); `m/84h/1x/0h` is rejected; a segment of digits followed by `h` or
`'` maps to its value plus 2^31 and a bare digit segment maps to its value.
Segments that match `\d+[h']?` are always accepted, but so are some
non-matching ones such as `+5` (Python `int()` tolerates signs, surrounding
whitespace and underscores). -/
theorem C8_path_parsing_amended :
    (_parse_hdkeypath "m/84h/1x/0h").isOk = false
    ∧ (∀ cs : List Char, cs ≠ [] → (∀ c ∈ cs, c.isDigit) →
        segIndex (String.mk cs) = .ok ((decimalVal cs : Nat) : Int))
    ∧ (∀ cs : List Char, cs ≠ [] → (∀ c ∈ cs, c.isDigit) →
        ∀ marker, (marker = 'h' ∨ marker = '\'') →
          segIndex (String.mk (cs ++ [marker]))
            = .ok (((decimalVal cs : Nat) : Int) + 2 ^ 31))
    ∧ (∀ path, (_parse_hdkeypath path).isOk = true
        ↔ ∀ seg ∈ pathParts path, (segIndex seg).isOk = true) :=
  ⟨by decide, segIndex_digits_bare, segIndex_digits_hardened,
    fun path => mapM_except_isOk segIndex (pathParts path)⟩

theorem C8_path_parsing_amended_witness :
    segIndex (String.mk ['8', '4', 'h']) = .ok (((84 : Nat) : Int) + 2 ^ 31) :=
  C8_path_parsing_amended.2.2.1 ['8', '4'] (by decide) (by decide) 'h' (Or.inl rfl)

theorem goodHmac_hmacDummy : GoodHmac hmacDummy := by
  intro k m
  refine ⟨fun b hb => ?_, by simp [hmacDummy]⟩
  simp only [hmacDummy] at hb
  rcases List.eq_of_mem_replicate hb with rfl
  norm_num

/-- C7 (amended): `_parse_xprv` raises exactly at the base58 layer — a
failed base58 decode (bad character) or a checksum mismatch propagates as an
error — but it performs no payload-length and no version check: any byte
payload round-trips through base58check and is sliced blindly. -/
theorem C7_parse_xprv_amended (sha256 : List Nat → List Nat) (hsha : GoodSha sha256) :
    (∀ s e, _b58decode s = .error e → _parse_xprv sha256 s = .error e)
    ∧ (∀ s data, _b58decode s = .ok data →
        data.drop (data.length - 4)
          ≠ (sha256 (sha256 (data.take (data.length - 4)))).take 4 →
        _parse_xprv sha256 s = .error "Invalid base58 checksum")
    ∧ (∀ payload, IsBytes payload →
        _parse_xprv sha256 (_b58encode_check sha256 payload)
          = .ok ((payload.drop 46).take 32, (payload.drop 13).take 32)) := by
  refine ⟨?_, ?_, ?_⟩
  · intro s e h
    unfold _parse_xprv _b58decode_check
    rw [h, exceptBind_err, exceptBind_err]
  · intro s data h hck
    unfold _parse_xprv _b58decode_check
    rw [h, exceptBind_ok, if_neg hck, exceptBind_err]
  · intro payload hp
    unfold _parse_xprv
    rw [b58check_roundtrip sha256 hsha payload hp, exceptBind_ok]
    rfl

theorem C7_parse_xprv_amended_witness :
    _parse_xprv sha256Dummy (_b58encode_check sha256Dummy [9])
      = .ok ((([9] : List Nat).drop 46).take 32, (([9] : List Nat).drop 13).take 32) :=
  (C7_parse_xprv_amended sha256Dummy goodSha_sha256Dummy).2.2 [9] (by decide)

set_option maxRecDepth 100000 in
/-- C7 (counterexample): a base58check string whose payload has 5 bytes
(not 78) parses successfully, and so does one with 78 bytes whose version
prefix `0xFF…` is not the tprv version — `_parse_xprv` never raises on
wrong length or wrong version. -/
theorem C7_counterexample :
    _parse_xprv sha256Dummy (_b58encode_check sha256Dummy [1]) = Except.ok ([], [])
      ∧ _parse_xprv sha256Dummy
          (_b58encode_check sha256Dummy (255 :: List.replicate 77 0))
        = Except.ok (List.replicate 32 0, List.replicate 32 0) :=
  ⟨by decide, by decide⟩

/-- C2: for a 32-byte parent key, chain code and 32-bit index `i`,
`_bip32_derive_child` feeds `0x00 ‖ ser256(k_par) ‖ ser32(i)` (hardened,
`i ≥ 2³¹`) or `compressed_pub(k_par) ‖ ser32(i)` (normal) to
HMAC-SHA-512 keyed by the chain code, and returns
`(I_L + k_par) mod N` as 32 big-endian bytes together with `I_R`. -/
theorem C2_ckdpriv (hmacSha512 : List Nat → List Nat → List Nat)
    (key chain_code : List Nat) (i : Nat)
    (hkl : key.length = 32) (hi : i < 2 ^ 32) :
    _bip32_derive_child hmacSha512 key chain_code (i : Int)
      = (if 2 ^ 31 ≤ i then Except.ok ([0x00] ++ key ++ natToBytesBE 4 i)
          else (_privkey_to_compressed_pubkey key).map
            (fun pub => pub ++ natToBytesBE 4 i)).bind
        (fun data =>
          Except.ok
            (natToBytesBE 32
                ((natFromBytesBE ((hmacSha512 chain_code data).take 32)
                  + natFromBytesBE key) % _SECP256K1_N),
              (hmacSha512 chain_code data).drop 32)) := by
  have hser : intToBytesBE 4 (i : Int) = Except.ok (natToBytesBE 4 i) := by
    unfold intToBytesBE
    rw [if_pos ⟨Int.ofNat_nonneg i, by exact_mod_cast (by norm_num : (256 ^ 4 : Nat) = 2 ^ 32) ▸ hi⟩]
    simp
  unfold _bip32_derive_child
  by_cases hh : 2 ^ 31 ≤ i
  · have hh' : (0x80000000 : Int) ≤ (i : Int) := by exact_mod_cast hh
    rw [if_pos hh', if_pos hh, hser, exceptBind_ok, exceptBind_pure, exceptDotBind_ok]
    rfl
  · have hh' : ¬ (0x80000000 : Int) ≤ (i : Int) := by exact_mod_cast hh
    rw [if_neg hh', if_neg hh]
    cases hpub : _privkey_to_compressed_pubkey key with
    | error e =>
        rw [exceptBind_err, exceptMap_err, exceptDotBind_err]
    | ok pub =>
        rw [exceptBind_ok, hser, exceptBind_ok, exceptBind_pure, exceptMap_ok,
          exceptDotBind_ok]
        rfl

theorem C2_ckdpriv_witness :
    _bip32_derive_child hmacDummy (List.replicate 32 0) [] (((2 : Nat) ^ 31 : Nat) : Int)
      = Except.ok (natToBytesBE 32 0, List.replicate 32 0) := by
  have h := C2_ckdpriv hmacDummy (List.replicate 32 0) [] (2 ^ 31) (by decide)
    (by norm_num)
  rw [h]
  decide

/-- C3: the master-key derivation returns `(I[0:32], I[32:64])` for every
seed, with no rejection of a zero or out-of-range key; instantiating the
HMAC parameter with a constant `0xFF` function exhibits a returned master
key `≥ N` (the claim — and BIP-32 — require a failure there, so the missing
range check is a code bug). -/
theorem C3_master_key_no_rejection :
    (∀ hmacSha512 seed_bytes, _seed_to_master_key hmacSha512 seed_bytes
        = ((hmacSha512 bitcoinSeedKey seed_bytes).take 32,
           (hmacSha512 bitcoinSeedKey seed_bytes).drop 32))
    ∧ _SECP256K1_N ≤ natFromBytesBE (_seed_to_master_key hmacFF (List.replicate 64 0)).1 :=
  ⟨fun _ _ => rfl, by decide⟩

theorem length_natToBitsBE (w n : Nat) : (natToBitsBE w n).length = w := by
  induction w generalizing n with
  | zero => rfl
  | succ w ih => simp [natToBitsBE, ih]

theorem natFromBytesBE_lt (bs : List Nat) (hb : IsBytes bs) :
    natFromBytesBE bs < 256 ^ bs.length := by
  rw [natFromBytesBE_eq_ofDigits, ← List.length_reverse]
  exact Nat.ofDigits_lt_base_pow_length (by norm_num)
    (fun x hx => hb x (List.mem_reverse.mp hx))

theorem pyBitLength_le_iff (n w : Nat) : pyBitLength n ≤ w ↔ n < 2 ^ w := by
  rw [pyBitLength_eq]
  rcases Nat.eq_zero_or_pos n with rfl | hn
  · simp [Nat.pos_pow_of_pos, Nat.pos_pow_of_pos w (by norm_num : 0 < 2)]
  · rw [if_neg (by omega)]
    constructor
    · intro h
      calc n < 2 ^ (Nat.log 2 n + 1) := Nat.lt_pow_succ_log_self (by norm_num) n
      _ ≤ 2 ^ w := Nat.pow_le_pow_right (by norm_num) h
    · intro h
      have := Nat.log_lt_of_lt_pow (by omega) h
      omega

theorem pyBinZfill_length (width n : Nat) (h : n < 2 ^ width) :
    (pyBinZfill width n).length = width := by
  unfold pyBinZfill
  rw [length_natToBitsBE, Nat.max_eq_left ((pyBitLength_le_iff n width).mpr h)]

theorem chunk11Go_length (fuel : Nat) (l : List Bool) (hf : l.length ≤ fuel) :
    (chunk11Go fuel l).length = (l.length + 10) / 11 := by
  induction fuel generalizing l with
  | zero =>
      cases l with
      | nil => rfl
      | cons a t => simp at hf
  | succ fuel ih =>
      cases l with
      | nil => rfl
      | cons a t =>
          show ((a :: t).take 11 :: chunk11Go fuel ((a :: t).drop 11)).length = _
          rw [List.length_cons, ih _ (by
            rw [List.length_drop]
            simp only [List.length_cons] at hf ⊢
            omega)]
          rw [List.length_drop, List.length_cons]
          omega

theorem chunk11Go_mem_length (fuel : Nat) (l : List Bool) (g : List Bool)
    (hg : g ∈ chunk11Go fuel l) : g.length ≤ 11 := by
  induction fuel generalizing l with
  | zero => simp [chunk11Go] at hg
  | succ fuel ih =>
      cases l with
      | nil => simp [chunk11Go] at hg
      | cons a t =>
          rcases List.mem_cons.mp hg with rfl | hg
          · rw [List.length_take]
            omega
          · exact ih _ hg

theorem bitsToNat_go_lt (bs : List Bool) :
    ∀ acc, bs.foldl (fun a b => a * 2 + (if b then 1 else 0)) acc
      < (acc + 1) * 2 ^ bs.length := by
  induction bs with
  | nil => intro acc; simp
  | cons b t ih =>
      intro acc
      rw [List.foldl_cons, List.length_cons, pow_succ]
      have step := ih (acc * 2 + (if b then 1 else 0))
      have hb : (if b then 1 else 0) ≤ 1 := by split <;> omega
      have h2 : (0 : Nat) < 2 ^ t.length := Nat.pos_pow_of_pos _ (by norm_num)
      nlinarith [step]

theorem bitsToNat_lt (bs : List Bool) : bitsToNat bs < 2 ^ bs.length := by
  have := bitsToNat_go_lt bs 0
  simpa [bitsToNat] using this

theorem bitsToNat_append_bit (A : List Bool) (b : Bool) :
    bitsToNat (A ++ [b]) = bitsToNat A * 2 + (if b then 1 else 0) := by
  unfold bitsToNat
  rw [List.foldl_append, List.foldl_cons, List.foldl_nil]

theorem bitsToNat_natToBitsBE (w n : Nat) :
    bitsToNat (natToBitsBE w n) = n % 2 ^ w := by
  induction w generalizing n with
  | zero => simp [natToBitsBE, bitsToNat, Nat.mod_one]
  | succ w ih =>
      show bitsToNat (natToBitsBE w (n / 2) ++ [n % 2 == 1]) = _
      rw [bitsToNat_append_bit, ih]
      have hbit : (if (n % 2 == 1) then 1 else 0) = n % 2 := by
        rcases Nat.mod_two_eq_zero_or_one n with h | h <;> rw [h] <;> rfl
      rw [hbit]
      have h1 : 2 * (n / 2) + n % 2 = n := Nat.div_add_mod n 2
      have h2 : 2 ^ w * (n / 2 / 2 ^ w) + n / 2 % 2 ^ w = n / 2 :=
        Nat.div_add_mod (n / 2) (2 ^ w)
      have h4 : n / 2 % 2 ^ w < 2 ^ w :=
        Nat.mod_lt _ (Nat.pos_pow_of_pos _ (by norm_num))
      have h5 : (2 : Nat) ^ (w + 1) = 2 ^ w * 2 := by ring
      have hs : n % 2 < 2 := Nat.mod_lt _ (by norm_num)
      have hn : n = 2 ^ (w + 1) * (n / 2 / 2 ^ w) + (n / 2 % 2 ^ w * 2 + n % 2) := by
        conv_lhs => rw [← h1, ← h2]
        ring
      conv_rhs => rw [hn]
      rw [Nat.mul_add_mod,
        Nat.mod_eq_of_lt (show n / 2 % 2 ^ w * 2 + n % 2 < 2 ^ (w + 1) by omega)]

theorem bitsToNat_take_natToBitsBE (w : Nat) :
    ∀ n k, k ≤ w →
      bitsToNat ((natToBitsBE w n).take k) = n / 2 ^ (w - k) % 2 ^ k := by
  induction w with
  | zero =>
      intro n k hk
      interval_cases k
      simp [natToBitsBE, bitsToNat, Nat.mod_one]
  | succ w ih =>
      intro n k hk
      rcases Nat.lt_or_ge k (w + 1) with hlt | hge
      · have hkw : k ≤ w := by omega
        show bitsToNat ((natToBitsBE w (n / 2) ++ [n % 2 == 1]).take k) = _
        rw [List.take_append_of_le_length (by rw [length_natToBitsBE]; exact hkw),
          ih (n / 2) k hkw, Nat.div_div_eq_div_mul]
        congr 2
        rw [← pow_succ']
        congr 1
        omega
      · have hkw : k = w + 1 := by omega
        subst hkw
        rw [List.take_of_length_le (by rw [length_natToBitsBE]), bitsToNat_natToBitsBE]
        simp

/-- C5: for each supported entropy size the mnemonic has exactly the
expected number of words (12/15/18/21/24); every word is drawn from the
2048-entry word list via an 11-bit index; the checksum bits are read from
the first digest byte only and equal its high `ent_bits/32` bits; and the
mnemonic is the space-join of the word list. -/
theorem C5_mnemonic (sha256 : List Nat → List Nat) (words : List String)
    (entropy : List Nat) (hsha : GoodSha sha256) (hw : words.length = 2048)
    (he : IsBytes entropy)
    (hlen : entropy.length = 16 ∨ entropy.length = 20 ∨ entropy.length = 24
      ∨ entropy.length = 28 ∨ entropy.length = 32) :
    (_entropy_to_mnemonic_words sha256 words entropy).length
        = bip39WordCount entropy.length
      ∧ (∀ wd ∈ _entropy_to_mnemonic_words sha256 words entropy, wd ∈ words)
      ∧ (∀ sha' : List Nat → List Nat,
          (sha' entropy).headD 0 = (sha256 entropy).headD 0 →
          _entropy_to_mnemonic_words sha' words entropy
            = _entropy_to_mnemonic_words sha256 words entropy)
      ∧ bitsToNat ((pyBinZfill 8 ((sha256 entropy).headD 0)).take
            (entropy.length * 8 / 32))
          = (sha256 entropy).headD 0 / 2 ^ (8 - entropy.length * 8 / 32)
      ∧ _entropy_to_mnemonic sha256 words entropy
          = String.intercalate " " (_entropy_to_mnemonic_words sha256 words entropy) := by
  have hh0 : (sha256 entropy).headD 0 < 256 := by
    have h1 := (hsha entropy).1
    have h2 := (hsha entropy).2
    cases hsh : sha256 entropy with
    | nil => rw [hsh] at h2; cases h2
    | cons a t =>
        rw [hsh] at h1
        exact h1 a (by simp)
  have hn : natFromBytesBE entropy < 2 ^ (entropy.length * 8) := by
    calc natFromBytesBE entropy < 256 ^ entropy.length := natFromBytesBE_lt entropy he
    _ = 2 ^ (entropy.length * 8) := by
        rw [show (256 : Nat) = 2 ^ 8 from rfl, ← pow_mul, Nat.mul_comm]
  have hcs : entropy.length * 8 / 32 ≤ 8 := by
    rcases hlen with h | h | h | h | h <;> rw [h] <;> norm_num
  have hall : (bip39AllBits sha256 entropy).length
      = entropy.length * 8 + entropy.length * 8 / 32 := by
    unfold bip39AllBits
    rw [List.length_append, pyBinZfill_length _ _ hn, List.length_take,
      pyBinZfill_length 8 _ (by omega)]
    rcases hlen with h | h | h | h | h <;> rw [h] <;> norm_num
  refine ⟨?_, ?_, ?_, ?_, rfl⟩
  · unfold _entropy_to_mnemonic_words
    rw [List.length_map, chunk11Go_length _ _ le_rfl, hall]
    rcases hlen with h | h | h | h | h <;> rw [h] <;> rfl
  · intro wd hwd
    unfold _entropy_to_mnemonic_words at hwd
    rcases List.mem_map.mp hwd with ⟨g, hg, rfl⟩
    have hglen : g.length ≤ 11 := chunk11Go_mem_length _ _ g hg
    have hidx : bitsToNat g < words.length := by
      rw [hw]
      calc bitsToNat g < 2 ^ g.length := bitsToNat_lt g
      _ ≤ 2 ^ 11 := Nat.pow_le_pow_right (by norm_num) hglen
    rw [List.getD_eq_getElem words "" hidx]
    exact List.getElem_mem hidx
  · intro sha' hsha'
    unfold _entropy_to_mnemonic_words bip39AllBits
    rw [hsha']
  · have hzf : pyBinZfill 8 ((sha256 entropy).headD 0)
        = natToBitsBE 8 ((sha256 entropy).headD 0) := by
      unfold pyBinZfill
      rw [Nat.max_eq_left ((pyBitLength_le_iff _ 8).mpr
        (lt_of_lt_of_le hh0 (by norm_num)))]
    rw [hzf, bitsToNat_take_natToBitsBE 8 _ _ hcs]
    apply Nat.mod_eq_of_lt
    rw [Nat.div_lt_iff_lt_mul (Nat.pos_pow_of_pos _ (by norm_num)), ← pow_add]
    calc (sha256 entropy).headD 0 < 256 := hh0
    _ ≤ 2 ^ (entropy.length * 8 / 32 + (8 - entropy.length * 8 / 32)) := by
        have h8 : entropy.length * 8 / 32 + (8 - entropy.length * 8 / 32) = 8 := by omega
        rw [h8]
        norm_num

theorem C5_mnemonic_witness :
    (_entropy_to_mnemonic_words sha256Dummy (List.replicate 2048 "w")
        (List.replicate 16 0)).length
      = bip39WordCount (List.replicate 16 0).length :=
  (C5_mnemonic sha256Dummy (List.replicate 2048 "w") (List.replicate 16 0)
    goodSha_sha256Dummy (List.length_replicate 2048 "w") (by decide)
    (Or.inl (by decide))).1

theorem length_natToBytesLE (w n : Nat) : (natToBytesLE w n).length = w := by
  induction w generalizing n with
  | zero => rfl
  | succ w ih => simp [natToBytesLE, ih]

theorem ripemdChunk_length (h c : List Nat) (hh : h.length = 5) :
    (ripemdChunk h c).length = 5 := by
  match h, hh with
  | [h0, h1, h2, h3, h4], _ => rfl

theorem ripemd160_length (message : List Nat) :
    (_ripemd160_fallback message).length = 20 := by
  unfold _ripemd160_fallback
  have hfold : ∀ (cs : List (List Nat)) (init : List Nat), init.length = 5 →
      (cs.foldl ripemdChunk init).length = 5 := by
    intro cs
    induction cs with
    | nil => intro init h; exact h
    | cons c t ih =>
        intro init h
        exact ih _ (ripemdChunk_length init c h)
  have h5 := hfold (chunks64Go (ripemdPad message).length (ripemdPad message))
    [0x67452301, 0xEFCDAB89, 0x98BADCFE, 0x10325476, 0xC3D2E1F0] rfl
  show ((List.map (natToBytesLE 4)
      (List.foldl ripemdChunk [0x67452301, 0xEFCDAB89, 0x98BADCFE, 0x10325476, 0xC3D2E1F0]
        (chunks64Go (ripemdPad message).length (ripemdPad message)))).flatten).length = 20
  generalize hhs : List.foldl ripemdChunk
    [0x67452301, 0xEFCDAB89, 0x98BADCFE, 0x10325476, 0xC3D2E1F0]
    (chunks64Go (ripemdPad message).length (ripemdPad message)) = hs at h5 ⊢
  match hs, h5 with
  | [a, b, c, d, e], _ =>
      simp [length_natToBytesLE]

theorem convertbitsLoop_spec (fuel : Nat) :
    ∀ acc bits ret, bits ≤ fuel →
      (convertbitsLoop 5 31 fuel acc bits ret).1 = bits % 5
      ∧ (convertbitsLoop 5 31 fuel acc bits ret).2.length = ret.length + bits / 5
      ∧ (∀ x ∈ (convertbitsLoop 5 31 fuel acc bits ret).2, x ∈ ret ∨ x < 32) := by
  induction fuel with
  | zero =>
      intro acc bits ret hb
      interval_cases bits
      exact ⟨rfl, rfl, fun x hx => Or.inl hx⟩
  | succ fuel ih =>
      intro acc bits ret hb
      unfold convertbitsLoop
      by_cases h5 : 5 ≤ bits
      · rw [if_pos h5]
        obtain ⟨e1, e2, e3⟩ := ih acc (bits - 5) (ret ++ [(acc >>> (bits - 5)) &&& 31])
          (by omega)
        refine ⟨by rw [e1]; omega, by rw [e2, List.length_append]; simp; omega, ?_⟩
        intro x hx
        rcases e3 x hx with hx' | hx'
        · rcases List.mem_append.mp hx' with hx'' | hx''
          · exact Or.inl hx''
          · right
            rcases List.mem_singleton.mp hx''
            calc (acc >>> (bits - 5)) &&& 31 ≤ 31 := Nat.and_le_right
            _ < 32 := by norm_num
        · exact Or.inr hx'
      · rw [if_neg h5]
        refine ⟨?_, ?_, fun x hx => Or.inl hx⟩
        · show bits = bits % 5
          omega
        · show ret.length = ret.length + bits / 5
          omega

theorem convert_fold_8_5 (data : List Nat) :
    ∀ st0 : Nat × Nat × List Nat, st0.2.1 < 5 →
      (data.foldl (convertbitsStep 8 5 31) st0).2.1 = (st0.2.1 + 8 * data.length) % 5
      ∧ (data.foldl (convertbitsStep 8 5 31) st0).2.2.length
          = st0.2.2.length + (st0.2.1 + 8 * data.length) / 5
      ∧ (∀ x ∈ (data.foldl (convertbitsStep 8 5 31) st0).2.2,
          x ∈ st0.2.2 ∨ x < 32)
      ∧ (data.foldl (convertbitsStep 8 5 31) st0).2.1 < 5 := by
  induction data with
  | nil =>
      intro st0 h0
      refine ⟨by simp; omega, by simp; omega, fun x hx => Or.inl hx, by simpa using h0⟩
  | cons v t ih =>
      intro st0 h0
      rw [List.foldl_cons]
      obtain ⟨l1, l2, l3⟩ := convertbitsLoop_spec (st0.2.1 + 8)
        ((st0.1 <<< 8) ||| v) (st0.2.1 + 8) st0.2.2 le_rfl
      have hstep : (convertbitsStep 8 5 31 st0 v).2.1 = (st0.2.1 + 8) % 5
          ∧ (convertbitsStep 8 5 31 st0 v).2.2.length
            = st0.2.2.length + (st0.2.1 + 8) / 5
          ∧ (∀ x ∈ (convertbitsStep 8 5 31 st0 v).2.2, x ∈ st0.2.2 ∨ x < 32) :=
        ⟨l1, l2, l3⟩
      obtain ⟨e1, e2, e3, e4⟩ := ih (convertbitsStep 8 5 31 st0 v)
        (by rw [hstep.1]; omega)
      refine ⟨?_, ?_, ?_, e4⟩
      · rw [e1, hstep.1, List.length_cons]
        omega
      · rw [e2, hstep.2.1, List.length_cons]
        omega
      · intro x hx
        rcases e3 x hx with hx' | hx'
        · rcases hstep.2.2 x hx' with h | h
          · exact Or.inl h
          · exact Or.inr h
        · exact Or.inr hx'

theorem convertbits_20 (wp : List Nat) (h : wp.length = 20) :
    ∃ data5, _convertbits wp 8 5 true = some data5
      ∧ data5.length = 32 ∧ ∀ d ∈ data5, d < 32 := by
  obtain ⟨e1, e2, e3, _⟩ := convert_fold_8_5 wp (0, 0, []) (by norm_num)
  refine ⟨(wp.foldl (convertbitsStep 8 5 31) (0, 0, [])).2.2, ?_, ?_, ?_⟩
  · unfold _convertbits
    have hmaxv : (1 <<< 5) - 1 = 31 := by decide
    rw [hmaxv, if_pos rfl, if_neg (by rw [e1, h]; norm_num)]
  · rw [e2, h]
    norm_num
  · intro d hd
    rcases e3 d hd with h' | h'
    · cases h'
    · exact h'

/-- C6: for every 33-byte compressed public key, the generated address is
`HRP ‖ "1" ‖ data_chars ‖ checksum_chars` with HRP `crnrt`, where the data
part is witness version 0 followed by the 32-group 8→5-bit regrouping of
the 20-byte HASH160 and the checksum has 6 characters; consequently the
address starts with `crnrt1q` and its length is 45, within 42–62. -/
theorem C6_bech32_address (sha256 : List Nat → List Nat) (pubkey : List Nat)
    (hlen : pubkey.length = 33) :
    ∃ data5 : List Nat,
      data5.length = 32 ∧ (∀ d ∈ data5, d < 32)
      ∧ _convertbits (_hash160 sha256 pubkey) 8 5 true = some data5
      ∧ _pubkey_to_bech32_address sha256 pubkey "crnrt"
          = .ok (_bech32_encode "crnrt" (0 :: data5))
      ∧ (_bech32_encode "crnrt" (0 :: data5)).data
          = "crnrt".data ++ "1".data
            ++ ((0 :: data5
                ++ _bech32_create_checksum "crnrt" (0 :: data5)).map bech32Char)
      ∧ (_bech32_create_checksum "crnrt" (0 :: data5)).length = 6
      ∧ (_bech32_encode "crnrt" (0 :: data5)).data
          = "crnrt1q".data
            ++ ((data5
                ++ _bech32_create_checksum "crnrt" (0 :: data5)).map bech32Char)
      ∧ (_bech32_encode "crnrt" (0 :: data5)).length = 45
      ∧ 42 ≤ (_bech32_encode "crnrt" (0 :: data5)).length
      ∧ (_bech32_encode "crnrt" (0 :: data5)).length ≤ 62 := by
  obtain ⟨data5, hconv, hl32, hbnd⟩ :=
    convertbits_20 (_hash160 sha256 pubkey) (ripemd160_length _)
  have hck6 : (_bech32_create_checksum "crnrt" (0 :: data5)).length = 6 := by
    unfold _bech32_create_checksum
    simp
  have hdata : (_bech32_encode "crnrt" (0 :: data5)).data
      = "crnrt".data ++ "1".data
        ++ ((0 :: data5
            ++ _bech32_create_checksum "crnrt" (0 :: data5)).map bech32Char) := by
    simp only [_bech32_encode, String.data_append]
  have hlen45 : (_bech32_encode "crnrt" (0 :: data5)).length = 45 := by
    show (_bech32_encode "crnrt" (0 :: data5)).data.length = 45
    rw [hdata]
    simp [hl32, hck6]
  refine ⟨data5, hl32, hbnd, hconv, ?_, hdata, hck6, ?_, hlen45, by omega, by omega⟩
  · unfold _pubkey_to_bech32_address
    rw [hconv]
    rfl
  · rw [hdata]
    rfl

theorem C6_bech32_address_witness :
    ∃ data5 : List Nat,
      data5.length = 32 ∧ (∀ d ∈ data5, d < 32)
      ∧ _convertbits (_hash160 sha256Dummy (List.replicate 33 2)) 8 5 true = some data5
      ∧ _pubkey_to_bech32_address sha256Dummy (List.replicate 33 2) "crnrt"
          = .ok (_bech32_encode "crnrt" (0 :: data5))
      ∧ (_bech32_encode "crnrt" (0 :: data5)).data
          = "crnrt".data ++ "1".data
            ++ ((0 :: data5
                ++ _bech32_create_checksum "crnrt" (0 :: data5)).map bech32Char)
      ∧ (_bech32_create_checksum "crnrt" (0 :: data5)).length = 6
      ∧ (_bech32_encode "crnrt" (0 :: data5)).data
          = "crnrt1q".data
            ++ ((data5
                ++ _bech32_create_checksum "crnrt" (0 :: data5)).map bech32Char)
      ∧ (_bech32_encode "crnrt" (0 :: data5)).length = 45
      ∧ 42 ≤ (_bech32_encode "crnrt" (0 :: data5)).length
      ∧ (_bech32_encode "crnrt" (0 :: data5)).length ≤ 62 :=
  C6_bech32_address sha256Dummy (List.replicate 33 2) (by decide)

theorem seed_to_master_key_shape (hmacSha512 : List Nat → List Nat → List Nat)
    (hhmac : GoodHmac hmacSha512) (seed : List Nat) :
    IsBytes (_seed_to_master_key hmacSha512 seed).1 ∧
    (_seed_to_master_key hmacSha512 seed).1.length = 32 ∧
    IsBytes (_seed_to_master_key hmacSha512 seed).2 ∧
    (_seed_to_master_key hmacSha512 seed).2.length = 32 := by
  obtain ⟨hb, hl⟩ := hhmac bitcoinSeedKey seed
  simp only [_seed_to_master_key]
  refine ⟨fun b hb' => hb _ (List.mem_of_mem_take hb'), ?_,
    fun b hb' => hb _ (List.mem_of_mem_drop hb'), ?_⟩
  · rw [List.length_take, hl]; decide
  · rw [List.length_drop, hl]

theorem genStep_child (sha256 : List Nat → List Nat)
    (hmacSha512 : List Nat → List Nat → List Nat) (pp : List String)
    (i : Nat) (key chain : List Nat) (cl : List (String × String × String)) (idx : Int)
    (st' : Nat × List Nat × List Nat × List (String × String × String))
    (h : genStep sha256 hmacSha512 pp (i, key, chain, cl) idx = Except.ok st') :
    _bip32_derive_child hmacSha512 key chain idx = Except.ok (st'.2.1, st'.2.2.1) := by
  simp only [genStep] at h
  cases hp : _privkey_to_compressed_pubkey key with
  | error e => rw [hp, exceptBind_err] at h; exact Except.noConfusion h
  | ok ppub =>
    rw [hp, exceptBind_ok] at h
    cases hc : _bip32_derive_child hmacSha512 key chain idx with
    | error e => rw [hc, exceptBind_err] at h; exact Except.noConfusion h
    | ok kc =>
      rw [hc, exceptBind_ok] at h
      cases hpub : _privkey_to_compressed_pubkey kc.1 with
      | error e => rw [hpub, exceptBind_err] at h; exact Except.noConfusion h
      | ok pub =>
        rw [hpub, exceptBind_ok] at h
        cases hx : _encode_tprv sha256 kc.1 kc.2 (i + 1)
            ((_hash160 sha256 ppub).take 4) idx with
        | error e => rw [hx, exceptBind_err] at h; exact Except.noConfusion h
        | ok xprv =>
          rw [hx, exceptBind_ok] at h
          cases hy : _encode_tpub sha256 pub kc.2 (i + 1)
              ((_hash160 sha256 ppub).take 4) idx with
          | error e => rw [hy, exceptBind_err] at h; exact Except.noConfusion h
          | ok xpub =>
            rw [hy, exceptBind_ok, exceptPure] at h
            cases Except.ok.inj h
            rfl

theorem genFold_key (sha256 : List Nat → List Nat)
    (hmacSha512 : List Nat → List Nat → List Nat) (pp : List String)
    (idxs : List Int) :
    ∀ (i : Nat) (key chain : List Nat) (cl : List (String × String × String))
      (st' : Nat × List Nat × List Nat × List (String × String × String)),
      idxs.foldlM (genStep sha256 hmacSha512 pp) (i, key, chain, cl) = Except.ok st' →
      idxs.foldlM (fun (kc : List Nat × List Nat) index =>
          _bip32_derive_child hmacSha512 kc.1 kc.2 index) (key, chain)
        = Except.ok (st'.2.1, st'.2.2.1) := by
  induction idxs with
  | nil =>
    intro i key chain cl st' h
    rw [List.foldlM_nil, exceptPure] at h
    cases Except.ok.inj h
    rfl
  | cons a t ih =>
    intro i key chain cl st' h
    rw [List.foldlM_cons] at h ⊢
    cases hs : genStep sha256 hmacSha512 pp (i, key, chain, cl) a with
    | error e => rw [hs, exceptBind_err] at h; exact Except.noConfusion h
    | ok st1 =>
      rw [hs, exceptBind_ok] at h
      obtain ⟨i1, key1, chain1, cl1⟩ := st1
      have hchild := genStep_child sha256 hmacSha512 pp i key chain cl a _ hs
      rw [hchild, exceptBind_ok]
      exact ih i1 key1 chain1 cl1 st' h

/-- C1: for every well-formed derivation path and every master extended
private key produced by the orchestrator, re-deriving with
`derive_privkey_wif` from the orchestrator's `master_xprv` along the same
path yields exactly the orchestrator's leaf `private_key_wif`. -/
theorem C1_rederive_wif (sha256 : List Nat → List Nat)
    (hmacSha512 : List Nat → List Nat → List Nat)
    (pbkdf2HmacSha512 : List Nat → List Nat → Nat → List Nat)
    (words : List String) (entropy : List Nat) (passphrase path : String)
    (hsha : GoodSha sha256) (hhmac : GoodHmac hmacSha512) :
    (_full_hd_generate sha256 hmacSha512 pbkdf2HmacSha512 words entropy passphrase path).bind
      (fun r => derive_privkey_wif sha256 hmacSha512 r.master_xprv path)
    = (_full_hd_generate sha256 hmacSha512 pbkdf2HmacSha512 words entropy passphrase path).map
      (fun r => r.private_key_wif) := by
  obtain ⟨hk1, hk2, hk3, hk4⟩ := seed_to_master_key_shape hmacSha512 hhmac
    (_mnemonic_to_seed pbkdf2HmacSha512 (_entropy_to_mnemonic sha256 words entropy) passphrase)
  simp only [_full_hd_generate]
  cases h1 : _privkey_to_compressed_pubkey
      (_seed_to_master_key hmacSha512 (_mnemonic_to_seed pbkdf2HmacSha512
        (_entropy_to_mnemonic sha256 words entropy) passphrase)).1 with
  | error e => rw [exceptBind_err, exceptDotBind_err, exceptMap_err]
  | ok master_pub =>
  simp only [exceptBind_ok]
  cases h2 : _encode_tprv sha256
      (_seed_to_master_key hmacSha512 (_mnemonic_to_seed pbkdf2HmacSha512
        (_entropy_to_mnemonic sha256 words entropy) passphrase)).1
      (_seed_to_master_key hmacSha512 (_mnemonic_to_seed pbkdf2HmacSha512
        (_entropy_to_mnemonic sha256 words entropy) passphrase)).2
      0 [0, 0, 0, 0] 0 with
  | error e => rw [exceptBind_err, exceptDotBind_err, exceptMap_err]
  | ok master_tprv =>
  simp only [exceptBind_ok]
  cases h3 : _encode_tpub sha256 master_pub
      (_seed_to_master_key hmacSha512 (_mnemonic_to_seed pbkdf2HmacSha512
        (_entropy_to_mnemonic sha256 words entropy) passphrase)).2
      0 [0, 0, 0, 0] 0 with
  | error e => rw [exceptBind_err, exceptDotBind_err, exceptMap_err]
  | ok master_tpub =>
  simp only [exceptBind_ok]
  cases h4 : _parse_hdkeypath path with
  | error e => rw [exceptBind_err, exceptDotBind_err, exceptMap_err]
  | ok indices =>
  simp only [exceptBind_ok]
  cases h5 : indices.foldlM
      (genStep sha256 hmacSha512 (pySplitSlash [] (pyStrip path.data)))
      (0, (_seed_to_master_key hmacSha512 (_mnemonic_to_seed pbkdf2HmacSha512
            (_entropy_to_mnemonic sha256 words entropy) passphrase)).1,
        (_seed_to_master_key hmacSha512 (_mnemonic_to_seed pbkdf2HmacSha512
            (_entropy_to_mnemonic sha256 words entropy) passphrase)).2,
        [("m", master_tprv, master_tpub)]) with
  | error e => rw [exceptBind_err, exceptDotBind_err, exceptMap_err]
  | ok stv =>
  simp only [exceptBind_ok]
  cases h6 : _privkey_to_compressed_pubkey stv.2.1 with
  | error e => rw [exceptBind_err, exceptDotBind_err, exceptMap_err]
  | ok pubkey =>
  simp only [exceptBind_ok]
  cases h7 : _pubkey_to_bech32_address sha256 pubkey "crnrt" with
  | error e => rw [exceptBind_err, exceptDotBind_err, exceptMap_err]
  | ok address =>
  simp only [exceptBind_ok]
  show derive_privkey_wif sha256 hmacSha512 master_tprv path
      = Except.ok (_privkey_to_wif sha256 stv.2.1 true)
  have hparse := parse_xprv_encode_tprv sha256 hsha
      (_seed_to_master_key hmacSha512 (_mnemonic_to_seed pbkdf2HmacSha512
        (_entropy_to_mnemonic sha256 words entropy) passphrase)).1
      (_seed_to_master_key hmacSha512 (_mnemonic_to_seed pbkdf2HmacSha512
        (_entropy_to_mnemonic sha256 words entropy) passphrase)).2
      [0, 0, 0, 0] 0 0 hk1 hk2 hk3 hk4 (by decide) (by decide) (by decide)
      ⟨le_refl 0, by norm_num⟩
  rw [h2, exceptDotBind_ok] at hparse
  have hfold := genFold_key sha256 hmacSha512 (pySplitSlash [] (pyStrip path.data)) indices
      0
      (_seed_to_master_key hmacSha512 (_mnemonic_to_seed pbkdf2HmacSha512
        (_entropy_to_mnemonic sha256 words entropy) passphrase)).1
      (_seed_to_master_key hmacSha512 (_mnemonic_to_seed pbkdf2HmacSha512
        (_entropy_to_mnemonic sha256 words entropy) passphrase)).2
      [("m", master_tprv, master_tpub)] stv h5
  simp only [derive_privkey_wif, hparse, h4, exceptBind_ok, hfold, exceptPure]

theorem C1_rederive_wif_witness :
    GoodSha sha256Dummy ∧ GoodHmac hmacDummy ∧
    ((_full_hd_generate sha256Dummy hmacDummy pbkdf2Dummy [] [] "" "m/0h").bind
      (fun r => derive_privkey_wif sha256Dummy hmacDummy r.master_xprv "m/0h")
    = (_full_hd_generate sha256Dummy hmacDummy pbkdf2Dummy [] [] "" "m/0h").map
      (fun r => r.private_key_wif)) :=
  ⟨goodSha_sha256Dummy, goodHmac_hmacDummy,
    C1_rederive_wif sha256Dummy hmacDummy pbkdf2Dummy [] [] "" "m/0h"
      goodSha_sha256Dummy goodHmac_hmacDummy⟩

theorem natCast_pow_eq_powMod (p : ℕ) (hp : 0 < p) (a n : ℕ) :
    ((a : ℕ) : ZMod p) ^ n = ((powMod a n p : ℕ) : ZMod p) := by
  rw [powMod_eq a n p hp, ZMod.natCast_mod, Nat.cast_pow]

theorem natCast_eq_one_of (p c : ℕ) (hp : 1 < p) (hc : c < p)
    (h : ((c : ℕ) : ZMod p) = 1) : c = 1 := by
  haveI : NeZero p := ⟨by omega⟩
  haveI : Fact (1 < p) := ⟨hp⟩
  have h1 : ((c : ZMod p)).val = c := ZMod.val_cast_of_lt hc
  rw [h, ZMod.val_one p] at h1
  omega

set_option maxRecDepth 100000 in
theorem prime_of_pratt (p a : Nat) (qs : List (Nat × Nat)) (hp : 2 ≤ p)
    (hprod : certProd qs = p - 1)
    (hqs : ∀ qe ∈ qs, Nat.Prime qe.1)
    (ha : powMod a (p - 1) p = 1)
    (hd : ∀ qe ∈ qs, powMod a ((p - 1) / qe.1) p ≠ 1) :
    Nat.Prime p := by
  have hp0 : 0 < p := by omega
  apply lucas_primality p ((a : ℕ) : ZMod p)
  · rw [natCast_pow_eq_powMod p hp0, ha, Nat.cast_one]
  · intro q hq hdvd
    have hmem : ∃ qe ∈ qs, qe.1 = q := by
      rw [← hprod] at hdvd
      simp only [certProd] at hdvd
      obtain ⟨b, hb, hqb⟩ := (hq.prime.dvd_prod_iff).mp hdvd
      obtain ⟨qe, hqe, rfl⟩ := List.mem_map.mp hb
      exact ⟨qe, hqe, ((Nat.prime_dvd_prime_iff_eq hq (hqs qe hqe)).mp
        (hq.dvd_of_dvd_pow hqb)).symm⟩
    obtain ⟨qe, hqe, rfl⟩ := hmem
    rw [natCast_pow_eq_powMod p hp0]
    intro hcon
    apply hd qe hqe
    have hlt : powMod (a : ℕ) ((p - 1) / qe.1) p < p := by
      rw [powMod_eq _ _ _ hp0]; exact Nat.mod_lt _ hp0
    exact natCast_eq_one_of p _ (by omega) hlt hcon

set_option maxRecDepth 100000 in
theorem prime_1206781 : Nat.Prime 1206781 := by
  apply prime_of_pratt 1206781 10 [(2, 2), (3, 1), (5, 1), (20113, 1)]
    (by norm_num) (by decide) ?_ (by decide) (by decide)
  intro qe hqe
  simp only [List.mem_cons, List.not_mem_nil, or_false] at hqe
  rcases hqe with rfl | rfl | rfl | rfl
  · exact Nat.prime_two
  · exact Nat.prime_three
  · exact by norm_num
  · exact by norm_num

set_option maxRecDepth 100000 in
theorem prime_7240687 : Nat.Prime 7240687 := by
  apply prime_of_pratt 7240687 3 [(2, 1), (3, 1), (1206781, 1)]
    (by norm_num) (by decide) ?_ (by decide) (by decide)
  intro qe hqe
  simp only [List.mem_cons, List.not_mem_nil, or_false] at hqe
  rcases hqe with rfl | rfl | rfl
  · exact Nat.prime_two
  · exact Nat.prime_three
  · exact prime_1206781

set_option maxRecDepth 100000 in
theorem prime_13331831 : Nat.Prime 13331831 := by
  apply prime_of_pratt 13331831 13 [(2, 1), (5, 1), (971, 1), (1373, 1)]
    (by norm_num) (by decide) ?_ (by decide) (by decide)
  intro qe hqe
  simp only [List.mem_cons, List.not_mem_nil, or_false] at hqe
  rcases hqe with rfl | rfl | rfl | rfl
  · exact Nat.prime_two
  · exact by norm_num
  · exact by norm_num
  · exact by norm_num

set_option maxRecDepth 100000 in
theorem prime_107590001 : Nat.Prime 107590001 := by
  apply prime_of_pratt 107590001 3 [(2, 4), (5, 4), (7, 1), (29, 1), (53, 1)]
    (by norm_num) (by decide) ?_ (by decide) (by decide)
  intro qe hqe
  simp only [List.mem_cons, List.not_mem_nil, or_false] at hqe
  rcases hqe with rfl | rfl | rfl | rfl | rfl
  · exact Nat.prime_two
  · exact by norm_num
  · exact by norm_num
  · exact by norm_num
  · exact by norm_num

set_option maxRecDepth 100000 in
theorem prime_173378833005251801 : Nat.Prime 173378833005251801 := by
  apply prime_of_pratt 173378833005251801 6 [(2, 3), (5, 2), (2621, 1), (24809, 1), (13331831, 1)]
    (by norm_num) (by decide) ?_ (by decide) (by decide)
  intro qe hqe
  simp only [List.mem_cons, List.not_mem_nil, or_false] at hqe
  rcases hqe with rfl | rfl | rfl | rfl | rfl
  · exact Nat.prime_two
  · exact by norm_num
  · exact by norm_num
  · exact by norm_num
  · exact prime_13331831

set_option maxRecDepth 100000 in
theorem prime_22149492674086928081353 : Nat.Prime 22149492674086928081353 := by
  apply prime_of_pratt 22149492674086928081353 5 [(2, 3), (3, 1), (5323, 1), (173378833005251801, 1)]
    (by norm_num) (by decide) ?_ (by decide) (by decide)
  intro qe hqe
  simp only [List.mem_cons, List.not_mem_nil, or_false] at hqe
  rcases hqe with rfl | rfl | rfl | rfl
  · exact Nat.prime_two
  · exact Nat.prime_three
  · exact by norm_num
  · exact prime_173378833005251801

set_option maxRecDepth 100000 in
theorem prime_132896956044521568488119 : Nat.Prime 132896956044521568488119 := by
  apply prime_of_pratt 132896956044521568488119 6 [(2, 1), (3, 1), (22149492674086928081353, 1)]
    (by norm_num) (by decide) ?_ (by decide) (by decide)
  intro qe hqe
  simp only [List.mem_cons, List.not_mem_nil, or_false] at hqe
  rcases hqe with rfl | rfl | rfl
  · exact Nat.prime_two
  · exact Nat.prime_three
  · exact prime_22149492674086928081353

set_option maxRecDepth 100000 in
theorem prime_255515944373312847190720520512484175977 : Nat.Prime 255515944373312847190720520512484175977 := by
  apply prime_of_pratt 255515944373312847190720520512484175977 3 [(2, 3), (7, 2), (11, 1), (1627, 1), (2657, 1), (4423, 1), (41201, 1), (96557, 1), (7240687, 1), (107590001, 1)]
    (by norm_num) (by decide) ?_ (by decide) (by decide)
  intro qe hqe
  simp only [List.mem_cons, List.not_mem_nil, or_false] at hqe
  rcases hqe with rfl | rfl | rfl | rfl | rfl | rfl | rfl | rfl | rfl | rfl
  · exact Nat.prime_two
  · exact by norm_num
  · exact by norm_num
  · exact by norm_num
  · exact by norm_num
  · exact by norm_num
  · exact by norm_num
  · exact by norm_num
  · exact prime_7240687
  · exact prime_107590001

set_option maxRecDepth 100000 in
theorem prime_205115282021455665897114700593932402728804164701536103180137503955397371 : Nat.Prime 205115282021455665897114700593932402728804164701536103180137503955397371 := by
  apply prime_of_pratt 205115282021455665897114700593932402728804164701536103180137503955397371 10 [(2, 1), (3, 1), (5, 1), (29, 2), (31, 1), (7723, 1), (132896956044521568488119, 1), (255515944373312847190720520512484175977, 1)]
    (by norm_num) (by decide) ?_ (by decide) (by decide)
  intro qe hqe
  simp only [List.mem_cons, List.not_mem_nil, or_false] at hqe
  rcases hqe with rfl | rfl | rfl | rfl | rfl | rfl | rfl | rfl
  · exact Nat.prime_two
  · exact Nat.prime_three
  · exact by norm_num
  · exact by norm_num
  · exact by norm_num
  · exact by norm_num
  · exact prime_132896956044521568488119
  · exact prime_255515944373312847190720520512484175977

set_option maxRecDepth 100000 in
theorem prime_115792089237316195423570985008687907853269984665640564039457584007908834671663 : Nat.Prime 115792089237316195423570985008687907853269984665640564039457584007908834671663 := by
  apply prime_of_pratt 115792089237316195423570985008687907853269984665640564039457584007908834671663 3 [(2, 1), (3, 1), (7, 1), (13441, 1), (205115282021455665897114700593932402728804164701536103180137503955397371, 1)]
    (by norm_num) (by decide) ?_ (by decide) (by decide)
  intro qe hqe
  simp only [List.mem_cons, List.not_mem_nil, or_false] at hqe
  rcases hqe with rfl | rfl | rfl | rfl | rfl
  · exact Nat.prime_two
  · exact Nat.prime_three
  · exact by norm_num
  · exact by norm_num
  · exact prime_205115282021455665897114700593932402728804164701536103180137503955397371

theorem secp_prime : Nat.Prime _SECP256K1_P :=
  prime_115792089237316195423570985008687907853269984665640564039457584007908834671663

theorem intCast_emod_P (a : Int) :
    ((a % (_SECP256K1_P : Int) : Int) : ZMod _SECP256K1_P) = (a : ZMod _SECP256K1_P) := by
  rw [ZMod.intCast_eq_intCast_iff']
  exact Int.emod_emod_of_dvd a dvd_rfl

theorem secp_cast_natCast_ne_zero (c : ℕ) (hc : 0 < c) (hlt : c < _SECP256K1_P) :
    ((c : ℕ) : ZMod _SECP256K1_P) ≠ 0 := by
  haveI : NeZero _SECP256K1_P := ⟨secp_prime.ne_zero⟩
  intro h
  rw [ZMod.natCast_zmod_eq_zero_iff_dvd] at h
  exact absurd (Nat.le_of_dvd hc h) (by omega)

theorem intCast_powModInt (b : Int) (e : Nat) :
    ((powModInt b e (_SECP256K1_P : Int) : Int) : ZMod _SECP256K1_P)
      = ((b : ZMod _SECP256K1_P)) ^ e := by
  have hP0 : 0 < _SECP256K1_P := secp_prime.pos
  have hPne : ((_SECP256K1_P : Nat) : Int) ≠ 0 := Int.natCast_ne_zero.mpr secp_prime.ne_zero
  have h0 : (0 : Int) ≤ b % (_SECP256K1_P : Int) := Int.emod_nonneg b hPne
  show (((powMod (b % (_SECP256K1_P : Int)).toNat e ((_SECP256K1_P : Int)).toNat : Nat) : Int)
      : ZMod _SECP256K1_P) = _
  rw [Int.cast_natCast]
  have hm : ((_SECP256K1_P : Int)).toNat = _SECP256K1_P := Int.toNat_natCast _
  rw [hm, ← natCast_pow_eq_powMod _ hP0]
  congr 1
  rw [← Int.cast_natCast (R := ZMod _SECP256K1_P), Int.toNat_of_nonneg h0, intCast_emod_P]

theorem zmod_pow_P_sub_two (a : ZMod _SECP256K1_P) (ha : a ≠ 0) :
    a ^ (_SECP256K1_P - 2) = a⁻¹ := by
  haveI : Fact (Nat.Prime _SECP256K1_P) := ⟨secp_prime⟩
  have h1 : a ^ (_SECP256K1_P - 1) = 1 := ZMod.pow_card_sub_one_eq_one ha
  have h2 : _SECP256K1_P - 1 = (_SECP256K1_P - 2) + 1 := by
    have := secp_prime.two_le
    omega
  rw [h2, pow_succ] at h1
  exact (inv_eq_of_mul_eq_one_right ((mul_comm a (a ^ (_SECP256K1_P - 2))).trans h1)).symm

theorem intCast_inj_range (a b : Int)
    (ha0 : 0 ≤ a) (ha1 : a < (_SECP256K1_P : Int))
    (hb0 : 0 ≤ b) (hb1 : b < (_SECP256K1_P : Int))
    (h : (a : ZMod _SECP256K1_P) = (b : ZMod _SECP256K1_P)) : a = b := by
  rw [ZMod.intCast_eq_intCast_iff'] at h
  rwa [Int.emod_eq_of_lt ha0 ha1, Int.emod_eq_of_lt hb0 hb1] at h

theorem secp_equation_iff (x y : ZMod _SECP256K1_P) :
    secpCurve.Equation x y ↔ y ^ 2 = x ^ 3 + 7 := by
  rw [WeierstrassCurve.Affine.equation_iff]
  simp [secpCurve]

theorem secp_seven_ne_zero : (7 : ZMod _SECP256K1_P) ≠ 0 := by
  have h := secp_cast_natCast_ne_zero 7 (by norm_num) (by decide)
  rwa [Nat.cast_ofNat] at h

theorem secp_two_ne_zero : (2 : ZMod _SECP256K1_P) ≠ 0 := by
  have h := secp_cast_natCast_ne_zero 2 (by norm_num) (by decide)
  rwa [Nat.cast_ofNat] at h

set_option maxRecDepth 100000 in
theorem secp_x_cube_ne (x : ZMod _SECP256K1_P) : x ^ 3 + 7 ≠ 0 := by
  haveI : Fact (Nat.Prime _SECP256K1_P) := ⟨secp_prime⟩
  intro h
  have hcube : x ^ 3 = -7 := by linear_combination h
  have hx : x ≠ 0 := by
    rintro rfl
    rw [zero_pow (by norm_num)] at hcube
    exact secp_seven_ne_zero (neg_eq_zero.mp hcube.symm)
  have h1 : x ^ (_SECP256K1_P - 1) = 1 := ZMod.pow_card_sub_one_eq_one hx
  have h3 : _SECP256K1_P - 1 =
      3 * 38597363079105398474523661669562635951089994888546854679819194669302944890554 := by
    decide
  rw [h3, pow_mul, hcube] at h1
  have hcast : (-7 : ZMod _SECP256K1_P) = ((_SECP256K1_P - 7 : ℕ) : ZMod _SECP256K1_P) := by
    have h7 : (7 : ℕ) ≤ _SECP256K1_P := by decide
    rw [Nat.cast_sub h7, ZMod.natCast_self, zero_sub, Nat.cast_ofNat]
  rw [hcast, natCast_pow_eq_powMod _ secp_prime.pos] at h1
  have hlt : powMod (_SECP256K1_P - 7)
      38597363079105398474523661669562635951089994888546854679819194669302944890554
      _SECP256K1_P < _SECP256K1_P := by
    rw [powMod_eq _ _ _ secp_prime.pos]
    exact Nat.mod_lt _ secp_prime.pos
  have hone := natCast_eq_one_of _ _ secp_prime.one_lt hlt h1
  exact absurd hone (by decide)

theorem add_formula_on_curve [Fact (Nat.Prime _SECP256K1_P)]
    (X1 X2 Y1 Y2 L : ZMod _SECP256K1_P)
    (h1 : Y1 ^ 2 = X1 ^ 3 + 7) (h2 : Y2 ^ 2 = X2 ^ 3 + 7)
    (hL : L = secpCurve.slope X1 X2 Y1 Y2)
    (hxy : X1 = X2 → Y1 ≠ -Y2) :
    (L * (X1 - (L * L - X1 - X2)) - Y1) ^ 2 = (L * L - X1 - X2) ^ 3 + 7 := by
  have he1 : secpCurve.Equation X1 Y1 := (secp_equation_iff _ _).mpr h1
  have he2 : secpCurve.Equation X2 Y2 := (secp_equation_iff _ _).mpr h2
  have hxy' : X1 = X2 → Y1 ≠ secpCurve.negY X2 Y2 := by
    intro hx
    have hne := hxy hx
    simpa [WeierstrassCurve.Affine.negY, secpCurve] using hne
  have hadd := WeierstrassCurve.Affine.equation_add he1 he2 hxy'
  rw [secp_equation_iff, ← hL] at hadd
  have haX : secpCurve.addX X1 X2 L = L * L - X1 - X2 := by
    simp only [WeierstrassCurve.Affine.addX, secpCurve]
    ring
  have haY : secpCurve.addY X1 X2 Y1 L = L * (X1 - (L * L - X1 - X2)) - Y1 := by
    simp only [WeierstrassCurve.Affine.addY, WeierstrassCurve.Affine.negAddY,
      WeierstrassCurve.Affine.negY, WeierstrassCurve.Affine.addX, secpCurve]
    ring
  rwa [haX, haY] at hadd

theorem onCurve_eq_iff (x y : Int) :
    (y ^ 2 - (x ^ 3 + 7)) % (_SECP256K1_P : Int) = 0 ↔
      ((y : ZMod _SECP256K1_P)) ^ 2 = ((x : ZMod _SECP256K1_P)) ^ 3 + 7 := by
  haveI : NeZero _SECP256K1_P := ⟨secp_prime.ne_zero⟩
  constructor
  · intro h
    have hd := Int.dvd_of_emod_eq_zero h
    have hc := (ZMod.intCast_zmod_eq_zero_iff_dvd _ _).mpr hd
    push_cast at hc
    linear_combination hc
  · intro h
    apply Int.emod_emod_of_dvd _ dvd_rfl ▸ Int.emod_eq_zero_of_dvd
    rw [← ZMod.intCast_zmod_eq_zero_iff_dvd]
    push_cast
    linear_combination h

theorem ec_result_on_curve [Fact (Nat.Prime _SECP256K1_P)] (lam x1 y1 x2 y2 : Int)
    (hc1 : ((y1 : ZMod _SECP256K1_P)) ^ 2 = ((x1 : ZMod _SECP256K1_P)) ^ 3 + 7)
    (hc2 : ((y2 : ZMod _SECP256K1_P)) ^ 2 = ((x2 : ZMod _SECP256K1_P)) ^ 3 + 7)
    (hL : ((lam : ZMod _SECP256K1_P))
        = secpCurve.slope (x1 : ZMod _SECP256K1_P) (x2 : ZMod _SECP256K1_P)
            (y1 : ZMod _SECP256K1_P) (y2 : ZMod _SECP256K1_P))
    (hxy : (x1 : ZMod _SECP256K1_P) = (x2 : ZMod _SECP256K1_P) →
        (y1 : ZMod _SECP256K1_P) ≠ -(y2 : ZMod _SECP256K1_P)) :
    onCurve (some ((lam * lam - x1 - x2) % (_SECP256K1_P : Int),
      (lam * (x1 - (lam * lam - x1 - x2) % (_SECP256K1_P : Int)) - y1)
        % (_SECP256K1_P : Int))) := by
  have hPpos : (0 : Int) < (_SECP256K1_P : Int) := Int.natCast_pos.mpr secp_prime.pos
  have hPne : ((_SECP256K1_P : ℕ) : Int) ≠ 0 := ne_of_gt hPpos
  refine ⟨Int.emod_nonneg _ hPne, Int.emod_lt_of_pos _ hPpos,
    Int.emod_nonneg _ hPne, Int.emod_lt_of_pos _ hPpos, ?_⟩
  rw [onCurve_eq_iff, intCast_emod_P, intCast_emod_P]
  push_cast
  have hmain := add_formula_on_curve (x1 : ZMod _SECP256K1_P) (x2 : ZMod _SECP256K1_P)
    (y1 : ZMod _SECP256K1_P) (y2 : ZMod _SECP256K1_P) (lam : ZMod _SECP256K1_P)
    hc1 hc2 hL hxy
  linear_combination hmain

theorem secp_negY (a b : ZMod _SECP256K1_P) : secpCurve.negY a b = -b := by
  simp [WeierstrassCurve.Affine.negY, secpCurve]

/-- C10: for every pair of inputs, each either the identity `none` or an
affine point on `y^2 = x^3 + 7 (mod P)` (with canonically reduced
coordinates, as the program represents all points), `_ec_point_add`
returns the identity or a point of the curve again. -/
theorem C10_ec_point_add_closed (p1 p2 : Option (Int × Int))
    (h1 : onCurve p1) (h2 : onCurve p2) :
    onCurve (_ec_point_add p1 p2) := by
  haveI : Fact (Nat.Prime _SECP256K1_P) := ⟨secp_prime⟩
  cases p1 with
  | none =>
    cases p2 with
    | none => trivial
    | some q => exact h2
  | some q1 =>
    cases p2 with
    | none => exact h1
    | some q2 =>
      obtain ⟨x1, y1⟩ := q1
      obtain ⟨x2, y2⟩ := q2
      obtain ⟨hx10, hx1P, hy10, hy1P, hc1⟩ := h1
      obtain ⟨hx20, hx2P, hy20, hy2P, hc2⟩ := h2
      rw [onCurve_eq_iff] at hc1 hc2
      simp only [_ec_point_add]
      by_cases hA : x1 = x2 ∧ y1 ≠ y2
      · rw [if_pos hA]
        trivial
      · rw [if_neg hA]
        push_neg at hA
        by_cases hx : x1 = x2
        · subst hx
          have hy : y1 = y2 := hA rfl
          subst hy
          rw [if_pos rfl]
          have hY1 : ((y1 : ZMod _SECP256K1_P)) ≠ 0 := by
            intro h0
            apply secp_x_cube_ne ((x1 : ZMod _SECP256K1_P))
            rw [← hc1, h0]
            ring
          have h2Y1 : (2 : ZMod _SECP256K1_P) * (y1 : ZMod _SECP256K1_P) ≠ 0 :=
            mul_ne_zero secp_two_ne_zero hY1
          have hyne : ((y1 : ZMod _SECP256K1_P)) ≠
              secpCurve.negY (x1 : ZMod _SECP256K1_P) (y1 : ZMod _SECP256K1_P) := by
            rw [secp_negY]
            intro h
            exact h2Y1 (by linear_combination h)
          apply ec_result_on_curve _ x1 y1 x1 y1 hc1 hc1 ?_
            (fun _ h => h2Y1 (by linear_combination h))
          rw [intCast_emod_P]
          push_cast
          rw [intCast_powModInt]
          push_cast
          rw [zmod_pow_P_sub_two _ h2Y1]
          rw [WeierstrassCurve.Affine.slope_of_Y_ne rfl hyne, secp_negY]
          simp only [secpCurve]
          rw [div_eq_mul_inv]
          rw [show ((y1 : ZMod _SECP256K1_P) - -(y1 : ZMod _SECP256K1_P))
              = 2 * (y1 : ZMod _SECP256K1_P) by ring]
          ring
        · rw [if_neg hx]
          have hXne : ((x1 : ZMod _SECP256K1_P)) ≠ (x2 : ZMod _SECP256K1_P) := by
            intro h
            exact hx (intCast_inj_range x1 x2 hx10 hx1P hx20 hx2P h)
          have hdne : ((x2 : ZMod _SECP256K1_P)) - (x1 : ZMod _SECP256K1_P) ≠ 0 :=
            sub_ne_zero.mpr (Ne.symm hXne)
          apply ec_result_on_curve _ x1 y1 x2 y2 hc1 hc2 ?_ (fun h => absurd h hXne)
          rw [intCast_emod_P]
          push_cast
          rw [intCast_powModInt]
          push_cast
          rw [zmod_pow_P_sub_two _ hdne]
          rw [WeierstrassCurve.Affine.slope_of_X_ne hXne]
          rw [div_eq_mul_inv]
          rw [show ((x1 : ZMod _SECP256K1_P) - (x2 : ZMod _SECP256K1_P))⁻¹
              = -(((x2 : ZMod _SECP256K1_P) - (x1 : ZMod _SECP256K1_P))⁻¹) by
            rw [← neg_sub ((x2 : ZMod _SECP256K1_P)) ((x1 : ZMod _SECP256K1_P)), inv_neg]]
          ring

theorem C10_ec_point_add_closed_witness :
    onCurve (some ((_SECP256K1_Gx : Int), (_SECP256K1_Gy : Int))) ∧
    onCurve (_ec_point_add (some ((_SECP256K1_Gx : Int), (_SECP256K1_Gy : Int)))
      (some ((_SECP256K1_Gx : Int), (_SECP256K1_Gy : Int)))) :=
  ⟨by decide, C10_ec_point_add_closed _ _ (by decide) (by decide)⟩
